import Mathlib

/-!
# Verification of `queue.c` (lab0-c)

A shallow embedding of the singly linked string queue of `src/queue.c`.

Memory is a typed heap: a list of cells indexed by address.  An address is
live when its slot holds a cell; `free` empties the slot and the address is
never handed out again, so a dangling pointer stays recognisable.  Every
dereference of a null pointer, of a freed address or of a cell of the wrong
kind, and every invalid `free`, is undefined behaviour in C and is reported
as `Res.fault`.  Loops run on fuel; an exhausted budget is `Res.timeout`.

The declarations of `queue_t` and `list_ele_t` come from `queue.h`;
`queue.c` uses the fields `head`, `tail`, `size` and `value`, `next`.  The
`size` field is kept as a mathematical integer; `q_size`, whose return type is
`int`, converts it to a 32-bit `int`.  The width of `size_t` is a parameter
`w` of `q_remove_head`, the only place where `size_t` arithmetic can wrap.
-/

namespace Lab0

/-- The characters of a C string before its terminator. -/
abbrev Text := List Char

/-- A pointer: `none` is `NULL`, `some a` is the address `a`. -/
abbrev Ptr := Option Nat

/-- The three kinds of objects `queue.c` allocates. -/
inductive Cell where
  | queue (head tail : Ptr) (size : Int)
  | ele (value next : Ptr)
  | str (s : Text)
  deriving DecidableEq, Repr

/-- The heap: slot `a` holds the object at address `a`, or `none` once freed. -/
abbrev Heap := List (Option Cell)

/-- A caller-supplied character buffer, read from the address `sp` onwards.
The list may be longer than the capacity the caller announces, so that a write
past the capacity shows up as a change of the list. -/
abbrev Buf := List Char

/-- Result of running a piece of the program. -/
inductive Res (α : Type) where
  | ok (a : α)
  | fault
  | timeout
  deriving DecidableEq, Repr

/-- Sequencing of program steps. -/
def Res.bind {α β : Type} (r : Res α) (f : α → Res β) : Res β :=
  match r with
  | .ok a => f a
  | .fault => .fault
  | .timeout => .timeout

instance : Monad Res where
  pure := Res.ok
  bind := Res.bind

/-- The object stored at an address, if the address is live. -/
def Heap.read (h : Heap) (a : Nat) : Option Cell := (h[a]?).join

/-- Overwrite the slot at address `a`. -/
def Heap.write (h : Heap) (a : Nat) (c : Option Cell) : Heap := h.set a c

/-- Extend the heap by one slot, at the address `h.length`. -/
def Heap.push (h : Heap) (c : Option Cell) : Heap := h ++ [c]

/-- Model of `malloc`: when storage is available (`avail`), a fresh address holding
the given initial object; otherwise `NULL` and an unchanged heap. -/
def malloc (avail : Bool) (h : Heap) (c : Cell) : Heap × Ptr :=
  if avail then (h.push (some c), some h.length) else (h, none)

/-- Model of `free(p)`: a no-op on `NULL`, a fault on an address that is not live. -/
def free (h : Heap) (p : Ptr) : Res Heap :=
  match p with
  | none => .ok h
  | some a =>
    match h.read a with
    | some _ => .ok (h.write a none)
    | none => .fault

/-- Read `q->head`. -/
def get_head (h : Heap) (q : Ptr) : Res Ptr :=
  match q with
  | none => .fault
  | some a =>
    match h.read a with
    | some (.queue hd _ _) => .ok hd
    | _ => .fault

/-- Read `q->tail`. -/
def get_tail (h : Heap) (q : Ptr) : Res Ptr :=
  match q with
  | none => .fault
  | some a =>
    match h.read a with
    | some (.queue _ tl _) => .ok tl
    | _ => .fault

/-- Read `q->size`. -/
def get_size (h : Heap) (q : Ptr) : Res Int :=
  match q with
  | none => .fault
  | some a =>
    match h.read a with
    | some (.queue _ _ sz) => .ok sz
    | _ => .fault

/-- Write `q->head = v`. -/
def set_head (h : Heap) (q : Ptr) (v : Ptr) : Res Heap :=
  match q with
  | none => .fault
  | some a =>
    match h.read a with
    | some (.queue _ tl sz) => .ok (h.write a (some (.queue v tl sz)))
    | _ => .fault

/-- Write `q->tail = v`. -/
def set_tail (h : Heap) (q : Ptr) (v : Ptr) : Res Heap :=
  match q with
  | none => .fault
  | some a =>
    match h.read a with
    | some (.queue hd _ sz) => .ok (h.write a (some (.queue hd v sz)))
    | _ => .fault

/-- Write `q->size = n`. -/
def set_size (h : Heap) (q : Ptr) (n : Int) : Res Heap :=
  match q with
  | none => .fault
  | some a =>
    match h.read a with
    | some (.queue hd tl _) => .ok (h.write a (some (.queue hd tl n)))
    | _ => .fault

/-- Read `p->next`. -/
def get_next (h : Heap) (p : Ptr) : Res Ptr :=
  match p with
  | none => .fault
  | some a =>
    match h.read a with
    | some (.ele _ nx) => .ok nx
    | _ => .fault

/-- Read `p->value`. -/
def get_value (h : Heap) (p : Ptr) : Res Ptr :=
  match p with
  | none => .fault
  | some a =>
    match h.read a with
    | some (.ele v _) => .ok v
    | _ => .fault

/-- Write `p->next = v`. -/
def set_next (h : Heap) (p : Ptr) (v : Ptr) : Res Heap :=
  match p with
  | none => .fault
  | some a =>
    match h.read a with
    | some (.ele val _) => .ok (h.write a (some (.ele val v)))
    | _ => .fault

/-- Write `p->value = v`. -/
def set_value (h : Heap) (p : Ptr) (v : Ptr) : Res Heap :=
  match p with
  | none => .fault
  | some a =>
    match h.read a with
    | some (.ele _ nx) => .ok (h.write a (some (.ele v nx)))
    | _ => .fault

/-- The string a `char *` points to. -/
def load_str (h : Heap) (p : Ptr) : Res Text :=
  match p with
  | none => .fault
  | some a =>
    match h.read a with
    | some (.str s) => .ok s
    | _ => .fault

/-- Model of `snprintf(dst, n, "%s", s)`: at most `n - 1` characters of `s`, then the
terminator. -/
def snprintf (h : Heap) (dst : Ptr) (n : Nat) (s : Text) : Res Heap :=
  match dst with
  | none => .fault
  | some a =>
    match h.read a with
    | some (.str _) => .ok (h.write a (some (.str (s.take (n - 1)))))
    | _ => .fault

/-- Rewrite the bytes of a buffer: byte `i` becomes `f i` of its old value. -/
def poke (f : Nat → Char → Char) : Nat → Buf → Buf
  | _, [] => []
  | i, c :: cs => f i c :: poke f (i + 1) cs

/-- Model of `memset(sp, c, n)`: the first `n` bytes become `c`. -/
def memset (sp : Buf) (c : Char) (n : Nat) : Buf :=
  poke (fun i old => if i < n then c else old) 0 sp

/-- Model of `strncpy(sp, src, n)`: exactly `n` bytes are written, the characters of
`src` and then zero padding. -/
def strncpy (sp : Buf) (src : Text) (n : Nat) : Buf :=
  poke (fun i old => if i < n then src.getD i (Char.ofNat 0) else old) 0 sp

/-- Function `q_new` (lines 12-24); `m` tells whether `malloc` finds storage. -/
def q_new (m : Bool) (h : Heap) : Res (Heap × Ptr) :=
  let r := malloc m h (.queue none none 0)
  if r.2 = none then pure (r.1, none) else do
    let h1 ← set_head r.1 r.2 none
    let h2 ← set_tail h1 r.2 none
    let h3 ← set_size h2 r.2 0
    pure (h3, r.2)

/-- The loop of `q_free` (lines 33-38). -/
def q_free_loop (q : Ptr) : Nat → Heap → Res Heap
  | 0, h => do
    let hd ← get_head h q
    if hd = none then pure h else Res.timeout
  | fuel + 1, h => do
    let hd ← get_head h q
    if hd = none then pure h else do
      let nx ← get_next h hd
      let h1 ← set_head h q nx
      let v ← get_value h1 hd
      let h2 ← free h1 v
      let h3 ← free h2 hd
      q_free_loop q fuel h3

/-- Function `q_free` (lines 27-41). -/
def q_free (fuel : Nat) (h : Heap) (q : Ptr) : Res Heap :=
  if q = none then pure h else do
    let h1 ← q_free_loop q fuel h
    free h1 q

/-- Function `q_insert_head` (lines 50-79); `m1`, `m2` tell whether the first and the
second `malloc` find storage. -/
def q_insert_head (m1 m2 : Bool) (h : Heap) (q : Ptr) (s : Text) :
    Res (Heap × Bool) :=
  if q = none then pure (h, false) else
    let r1 := malloc m1 h (.ele none none)
    let newh := r1.2
    if newh = none then pure (r1.1, false) else do
      let s_len := s.length + 1
      let r2 := malloc m2 r1.1 (.str [])
      let h2 ← set_value r2.1 newh r2.2
      if r2.2 = none then do
        let h3 ← free h2 newh
        pure (h3, false)
      else do
        let h3 ← snprintf h2 r2.2 s_len s
        let hd ← get_head h3 q
        let h4 ← set_next h3 newh hd
        let h5 ← set_head h4 q newh
        let tl ← get_tail h5 q
        let h6 ← if tl = none then set_tail h5 q newh else pure h5
        let sz ← get_size h6 q
        let h7 ← set_size h6 q (sz + 1)
        pure (h7, true)

/-- Function `q_insert_tail` (lines 88-114). -/
def q_insert_tail (m1 m2 : Bool) (h : Heap) (q : Ptr) (s : Text) :
    Res (Heap × Bool) :=
  if q = none then pure (h, false) else
    let r1 := malloc m1 h (.ele none none)
    let newt := r1.2
    if newt = none then pure (r1.1, false) else do
      let s_len := s.length + 1
      let r2 := malloc m2 r1.1 (.str [])
      let h2 ← set_value r2.1 newt r2.2
      if r2.2 = none then do
        let h3 ← free h2 newt
        pure (h3, false)
      else do
        let h3 ← snprintf h2 r2.2 s_len s
        let h4 ← set_next h3 newt none
        let tl ← get_tail h4 q
        let h6 ← if tl = none then do
            let h5 ← set_tail h4 q newt
            set_head h5 q newt
          else do
            let h5 ← set_next h4 tl newt
            set_tail h5 q newt
        let sz ← get_size h6 q
        let h7 ← set_size h6 q (sz + 1)
        pure (h7, true)

/-- The value of `realbufsize` (lines 131-133) for a stored text of length
`len`, with `size_t` of `w` bits. -/
def realbufsize (w len bufsize : Nat) : Nat :=
  if len < bufsize then len else (bufsize + 2 ^ w - 1) % 2 ^ w

/-- The copy into the caller's buffer (lines 131-136). -/
def copy_out (w : Nat) (sp : Buf) (t : Text) (bufsize : Nat) : Buf :=
  let n := realbufsize w t.length bufsize
  strncpy (memset sp (Char.ofNat 0) ((n + 1) % 2 ^ w)) t n

/-- Function `q_remove_head` (lines 124-145); `sp = none` is a `NULL` buffer. -/
def q_remove_head (w : Nat) (h : Heap) (q : Ptr) (sp : Option Buf)
    (bufsize : Nat) : Res (Heap × Option Buf × Bool) :=
  if q = none then pure (h, sp, false) else do
    let hd ← get_head h q
    if hd = none then pure (h, sp, false) else do
      let sp1 ← match sp with
        | none => pure none
        | some buf => do
          let v ← get_value h hd
          let t ← load_str h v
          pure (some (copy_out w buf t bufsize))
      let nx ← get_next h hd
      let h1 ← set_head h q nx
      let v ← get_value h1 hd
      let h2 ← free h1 v
      let h3 ← free h2 hd
      let sz ← get_size h3 q
      let h4 ← set_size h3 q (sz - 1)
      pure (h4, sp1, true)

/-- The largest value of the C type `int`, taken as 32 bits wide. -/
def INT_MAX : Int := 2147483647

/-- The `int` that a `return` of the count yields: a count within the range
of `int` is returned as it is, a count outside it wraps modulo `2 ^ 32`. -/
def to_int (z : Int) : Int := (z + 2147483648) % 4294967296 - 2147483648

/-- Function `q_size` (lines 151-157); its result is an `int`. -/
def q_size (h : Heap) (q : Ptr) : Res (Heap × Int) :=
  if q = none then pure (h, 0) else do
    let sz ← get_size h q
    pure (h, to_int sz)

/-- The loop of `q_reverse` (lines 173-178); the result carries the final
value of `tmp`. -/
def q_reverse_loop (q : Ptr) : Nat → Heap → Ptr → Res (Heap × Ptr)
  | 0, h, tmp => do
    let tl ← get_tail h q
    if tmp = tl then pure (h, tmp) else Res.timeout
  | fuel + 1, h, tmp => do
    let tl ← get_tail h q
    if tmp = tl then pure (h, tmp) else do
      let hd ← get_head h q
      let tn ← get_next h tmp
      let h1 ← set_next h hd tn
      let tl1 ← get_tail h1 q
      let tln ← get_next h1 tl1
      let h2 ← set_next h1 tmp tln
      let tl2 ← get_tail h2 q
      let h3 ← set_next h2 tl2 tmp
      let hd3 ← get_head h3 q
      let tmp1 ← get_next h3 hd3
      q_reverse_loop q fuel h3 tmp1

/-- Function `q_reverse` (lines 166-183). -/
def q_reverse (fuel : Nat) (h : Heap) (q : Ptr) : Res Heap :=
  if q = none then pure h else do
    let hd ← get_head h q
    if hd = none then pure h else do
      let sz ← get_size h q
      if sz = 1 then pure h else do
        let tmp ← get_next h hd
        let tl ← get_tail h q
        let h1 ← set_next h tl hd
        let r ← q_reverse_loop q fuel h1 tmp
        let hd2 ← get_head r.1 q
        let h3 ← set_next r.1 hd2 none
        let hd3 ← get_head h3 q
        let h4 ← set_tail h3 q hd3
        let h5 ← set_head h4 q r.2
        pure h5

/-- Function `q_sort` (lines 190-194): the body is empty. -/
def q_sort (h : Heap) (_q : Ptr) : Res Heap := pure h

/-! ## Observations and the data-model invariants -/

/-- One element of the queue as the heap holds it: the address of its node,
the address of its string and the characters of that string. -/
structure Entry where
  node : Nat
  str : Nat
  text : Text
  deriving DecidableEq, Repr

/-- The pointer to the first node of a chain, `e` when the chain is empty. -/
def firstPtr (es : List Entry) (e : Ptr) : Ptr :=
  match es with
  | [] => e
  | x :: _ => some x.node

/-- The pointer to the last node of a chain, `NULL` when the chain is empty. -/
def lastPtr (es : List Entry) : Ptr := es.getLast?.map Entry.node

/-- The nodes of `es` are live and linked in this order, the last one having
`e` as its successor; each node points to its own live string. -/
def Seg (h : Heap) : List Entry → Ptr → Prop
  | [], _ => True
  | x :: xs, e =>
    h.read x.node = some (.ele (some x.str) (firstPtr xs e)) ∧
    h.read x.str = some (.str x.text) ∧ Seg h xs e

instance Seg.decide (h : Heap) : (es : List Entry) → (e : Ptr) → Decidable (Seg h es e)
  | [], _ => isTrue trivial
  | _ :: xs, e =>
    have : Decidable (Seg h xs e) := Seg.decide h xs e
    inferInstanceAs (Decidable (_ ∧ _ ∧ _))

/-- The queue at address `q` holds the chain `es` reading from `head`: the
chain is `NULL`-terminated, no node and no string occurs twice, and the other
two fields are `tl` and `sz`. -/
def Rep (h : Heap) (q : Nat) (es : List Entry) (tl : Ptr) (sz : Int) : Prop :=
  h.read q = some (.queue (firstPtr es none) tl sz) ∧ Seg h es none ∧
  (es.map Entry.node).Nodup ∧ (es.map Entry.str).Nodup

instance (h : Heap) (q : Nat) (es : List Entry) (tl : Ptr) (sz : Int) :
    Decidable (Rep h q es tl sz) :=
  inferInstanceAs (Decidable (_ ∧ _ ∧ _ ∧ _))

/-- The data-model invariants: the queue holds the chain `es`, `tail` is its
last node and `size` its length. -/
def Inv (h : Heap) (q : Nat) (es : List Entry) : Prop :=
  Rep h q es (lastPtr es) es.length

instance (h : Heap) (q : Nat) (es : List Entry) : Decidable (Inv h q es) :=
  inferInstanceAs (Decidable (Rep _ _ _ _ _))

/-- The texts met when following `next` from `p` down to `NULL`, in at most
`n` steps. -/
def texts_from (h : Heap) : Nat → Ptr → Option (List Text)
  | _, none => some []
  | 0, some _ => none
  | n + 1, some a =>
    match h.read a with
    | some (.ele (some v) nx) =>
      match h.read v with
      | some (.str s) => (texts_from h n nx).map (fun r => s :: r)
      | _ => none
    | _ => none

/-- The texts of the queue read from `head`.  A chain without a cycle has at
most as many nodes as the heap has slots, which bounds the walk. -/
def q_texts (h : Heap) (q : Nat) : Option (List Text) :=
  match h.read q with
  | some (.queue hd _ _) => texts_from h h.length hd
  | _ => none

/-- The pointer reached from `p` after following `next` exactly `n` times
(`NULL` when the walk leaves the live nodes). -/
def follow (h : Heap) : Nat → Ptr → Ptr
  | 0, p => p
  | _ + 1, none => none
  | n + 1, some a =>
    match h.read a with
    | some (.ele _ nx) => follow h n nx
    | _ => none

/-- The invariants of the data model, as the specification lists them, on the
fields of the queue at address `q`. -/
def SpecInv (h : Heap) (q : Nat) : Prop :=
  match h.read q with
  | some (.queue hd tl sz) =>
    0 ≤ sz ∧ (sz = 0 ↔ hd = none ∧ tl = none) ∧
    (1 ≤ sz → hd ≠ none ∧ tl ≠ none) ∧ (sz = 1 → hd = tl) ∧
    (1 ≤ sz → follow h (sz - 1).toNat hd = tl ∧ get_next h tl = .ok none)
  | _ => False

/-- The live addresses of a heap. -/
def live (h : Heap) : List Nat :=
  (List.range h.length).filter (fun a => (h.read a).isSome)

/-- An insertion request. -/
inductive Ins where
  | head (s : Text)
  | tail (s : Text)
  deriving DecidableEq, Repr

/-- Run a sequence of insertions whose allocations all succeed; the Boolean
tells whether every call reported success. -/
def run_ins (q : Ptr) : List Ins → Heap → Res (Heap × Bool)
  | [], h => pure (h, true)
  | .head s :: ops, h => do
    let r ← q_insert_head true true h q s
    let r1 ← run_ins q ops r.1
    pure (r1.1, r.2 && r1.2)
  | .tail s :: ops, h => do
    let r ← q_insert_tail true true h q s
    let r1 ← run_ins q ops r.1
    pure (r1.1, r.2 && r1.2)

/-- The texts a sequence of insertions puts at the head, in call order. -/
def head_texts : List Ins → List Text
  | [] => []
  | .head s :: ops => s :: head_texts ops
  | .tail _ :: ops => head_texts ops

/-- The texts a sequence of insertions puts at the tail, in call order. -/
def tail_texts : List Ins → List Text
  | [] => []
  | .head _ :: ops => tail_texts ops
  | .tail s :: ops => s :: tail_texts ops

/-- A call of one of the four mutating operations. -/
inductive Op where
  | ins_head (s : Text)
  | ins_tail (s : Text)
  | rem_head
  | reverse
  deriving DecidableEq, Repr

/-- Run one call; allocations succeed, `q_remove_head` gets no buffer. -/
def run_op (w fuel : Nat) (q : Ptr) (h : Heap) : Op → Res Heap
  | .ins_head s => do
    let r ← q_insert_head true true h q s
    pure r.1
  | .ins_tail s => do
    let r ← q_insert_tail true true h q s
    pure r.1
  | .rem_head => do
    let r ← q_remove_head w h q none 0
    pure r.1
  | .reverse => q_reverse fuel h q

/-- Run a sequence of calls from left to right. -/
def run_ops (w fuel : Nat) (q : Ptr) : List Op → Heap → Res Heap
  | [], h => pure h
  | op :: ops, h => do
    let h1 ← run_op w fuel q h op
    run_ops w fuel q ops h1

/-- A queue at address 0 holding three nodes with the texts a, b, c. -/
def demo_heap : Heap :=
  [some (.queue (some 1) (some 5) 3),
   some (.ele (some 2) (some 3)), some (.str ['a']),
   some (.ele (some 4) (some 5)), some (.str ['b']),
   some (.ele (some 6) none), some (.str ['c'])]

/-- The chain of `demo_heap`. -/
def demo_entries : List Entry :=
  [⟨1, 2, ['a']⟩, ⟨3, 4, ['b']⟩, ⟨5, 6, ['c']⟩]

/-- A queue at address 0 holding one node with the text a. -/
def demo_single : Heap :=
  [some (.queue (some 1) (some 1) 1), some (.ele (some 2) none), some (.str ['a'])]

/-- An empty queue at address 0. -/
def demo_empty : Heap := [some (.queue none none 0)]

instance (h : Heap) (q : Nat) : Decidable (SpecInv h q) :=
  match hc : h.read q with
  | some (.queue hd tl sz) =>
    decidable_of_iff
      (0 ≤ sz ∧ (sz = 0 ↔ hd = none ∧ tl = none) ∧
        (1 ≤ sz → hd ≠ none ∧ tl ≠ none) ∧ (sz = 1 → hd = tl) ∧
        (1 ≤ sz → follow h (sz - 1).toNat hd = tl ∧ get_next h tl = .ok none))
      (by simp only [SpecInv, hc])
  | some (.ele _ _) => isFalse (by simp only [SpecInv, hc, not_false_eq_true])
  | some (.str _) => isFalse (by simp only [SpecInv, hc, not_false_eq_true])
  | none => isFalse (by simp only [SpecInv, hc, not_false_eq_true])

/-- The heap left by `q_remove_head` on `demo_single`: the queue is empty,
its node and string are freed, `tail` still holds the address 1. -/
def demo_drained : Heap := [some (.queue none (some 1) 0), none, none]

/-- A queue at address 0 holding two nodes with the texts b, a in this order. -/
def demo_unsorted : Heap :=
  [some (.queue (some 1) (some 3) 2),
   some (.ele (some 2) (some 3)), some (.str ['b']),
   some (.ele (some 4) none), some (.str ['a'])]

/-- The heap reached from `demo_empty` by inserting a at the head, removing
it, and inserting b and then c at the head: two nodes are linked from `head`,
`size` is 2, and `tail` still holds the address 1 of the freed first node. -/
def demo_stale : Heap :=
  [some (.queue (some 5) (some 1) 2), none, none,
   some (.ele (some 4) none), some (.str ['b']),
   some (.ele (some 6) (some 3)), some (.str ['c'])]

/-! ## Basic facts about the heap -/

@[simp] theorem Res.ok_bind {α β : Type} (a : α) (f : α → Res β) :
    (Res.ok a >>= f) = f a := rfl
@[simp] theorem Res.fault_bind {α β : Type} (f : α → Res β) :
    ((Res.fault : Res α) >>= f) = Res.fault := rfl
@[simp] theorem Res.timeout_bind {α β : Type} (f : α → Res β) :
    ((Res.timeout : Res α) >>= f) = Res.timeout := rfl
@[simp] theorem Res.pure_eq {α : Type} (a : α) : (pure a : Res α) = Res.ok a := rfl

theorem read_lt {h : Heap} {a : Nat} {c : Cell} (hr : h.read a = some c) :
    a < h.length := by
  by_contra hge
  simp [Heap.read, List.getElem?_eq_none (Nat.le_of_not_lt hge)] at hr

@[simp] theorem length_write (h : Heap) (a : Nat) (c : Option Cell) :
    (h.write a c).length = h.length := by
  simp [Heap.write]

@[simp] theorem length_push (h : Heap) (c : Option Cell) :
    (h.push c).length = h.length + 1 := by
  simp [Heap.push]

theorem read_write (h : Heap) (a b : Nat) (c : Option Cell) :
    (h.write a c).read b = if b = a then (if a < h.length then c else none) else h.read b := by
  unfold Heap.read Heap.write
  rw [List.getElem?_set]
  by_cases hab : a = b
  · subst hab
    by_cases hl : a < h.length <;> simp [hl]
  · have : ¬ b = a := fun e => hab e.symm
    simp [hab, this]

theorem read_push (h : Heap) (a : Nat) (c : Option Cell) :
    (h.push c).read a = if a = h.length then c else h.read a := by
  unfold Heap.read Heap.push
  by_cases ha : a = h.length
  · subst ha; simp
  · rcases Nat.lt_or_gt_of_ne ha with hlt | hgt
    · rw [List.getElem?_append_left hlt]; simp [ha]
    · rw [List.getElem?_eq_none (by simp; omega), List.getElem?_eq_none (by omega)]; simp [ha]

theorem heap_ext {h h' : Heap} (hl : h'.length = h.length)
    (hr : ∀ a, h'.read a = h.read a) : h' = h := by
  apply List.ext_getElem?
  intro n
  have := hr n
  unfold Heap.read at this
  by_cases hn : n < h.length
  · have hn' : n < h'.length := by omega
    rw [List.getElem?_eq_getElem hn, List.getElem?_eq_getElem hn'] at this ⊢
    simpa using this
  · rw [List.getElem?_eq_none (by omega), List.getElem?_eq_none (by omega)]

theorem insert_head_run {h : Heap} {q : Nat} {hd tl : Ptr} {sz : Int}
    (hq : h.read q = some (.queue hd tl sz)) (s : Text) :
    ∃ h', q_insert_head true true h (some q) s = .ok (h', true) ∧
      h'.length = h.length + 2 ∧
      h'.read q = some (.queue (some h.length) (if tl = none then some h.length else tl) (sz + 1)) ∧
      h'.read h.length = some (.ele (some (h.length + 1)) hd) ∧
      h'.read (h.length + 1) = some (.str s) ∧
      ∀ a, a ≠ q → a ≠ h.length → a ≠ h.length + 1 → h'.read a = h.read a := by
  have hql := read_lt hq
  have h1 : q ≠ h.length := by omega
  have h2 : q ≠ h.length + 1 := by omega
  have h3 : h.length < h.length + 1 + 1 := by omega
  have h4 : q < h.length + 1 + 1 := by omega
  by_cases htl : tl = none
  · subst htl
    simp [q_insert_head, malloc, set_value, snprintf, get_head, set_next, set_head, get_tail,
      set_tail, get_size, set_size, read_write, read_push, hq, h1, h2, h3, h4, hql, h1.symm,
      h2.symm]
    intro a ha hb hc
    simp [ha, hb, hc]
  · simp [q_insert_head, malloc, set_value, snprintf, get_head, set_next, set_head, get_tail,
      set_tail, get_size, set_size, read_write, read_push, hq, h1, h2, h3, h4, hql, h1.symm,
      h2.symm, htl]
    intro a ha hb hc
    simp [ha, hb, hc]

theorem insert_tail_run_empty {h : Heap} {q : Nat} {hd : Ptr} {sz : Int}
    (hq : h.read q = some (.queue hd none sz)) (s : Text) :
    ∃ h', q_insert_tail true true h (some q) s = .ok (h', true) ∧
      h'.length = h.length + 2 ∧
      h'.read q = some (.queue (some h.length) (some h.length) (sz + 1)) ∧
      h'.read h.length = some (.ele (some (h.length + 1)) none) ∧
      h'.read (h.length + 1) = some (.str s) ∧
      ∀ a, a ≠ q → a ≠ h.length → a ≠ h.length + 1 → h'.read a = h.read a := by
  have hql := read_lt hq
  have h1 : q ≠ h.length := by omega
  have h2 : q ≠ h.length + 1 := by omega
  have h3 : h.length < h.length + 1 + 1 := by omega
  have h4 : q < h.length + 1 + 1 := by omega
  simp [q_insert_tail, malloc, set_value, snprintf, get_head, set_next, set_head, get_tail,
    set_tail, get_size, set_size, read_write, read_push, hq, h1, h2, h3, h4, hql, h1.symm,
    h2.symm]
  intro a ha hb hc
  simp [ha, hb, hc]

theorem insert_tail_run {h : Heap} {q t : Nat} {hd vt nt : Ptr} {sz : Int}
    (hq : h.read q = some (.queue hd (some t) sz))
    (ht : h.read t = some (.ele vt nt)) (s : Text) :
    ∃ h', q_insert_tail true true h (some q) s = .ok (h', true) ∧
      h'.length = h.length + 2 ∧
      h'.read q = some (.queue hd (some h.length) (sz + 1)) ∧
      h'.read t = some (.ele vt (some h.length)) ∧
      h'.read h.length = some (.ele (some (h.length + 1)) none) ∧
      h'.read (h.length + 1) = some (.str s) ∧
      ∀ a, a ≠ q → a ≠ t → a ≠ h.length → a ≠ h.length + 1 → h'.read a = h.read a := by
  have hql := read_lt hq
  have htl := read_lt ht
  have hqt : q ≠ t := by
    intro e; rw [e, ht] at hq; cases hq
  have h1 : q ≠ h.length := by omega
  have h2 : q ≠ h.length + 1 := by omega
  have h3 : h.length < h.length + 1 + 1 := by omega
  have h4 : q < h.length + 1 + 1 := by omega
  have h5 : t ≠ h.length := by omega
  have h6 : t ≠ h.length + 1 := by omega
  have h7 : t < h.length + 1 + 1 := by omega
  simp [q_insert_tail, malloc, set_value, snprintf, get_head, set_next, set_head, get_tail,
    set_tail, get_size, set_size, read_write, read_push, hq, ht, h1, h2, h3, h4, h5, h6, h7, hql,
    h1.symm, h2.symm, h5.symm, h6.symm, hqt, hqt.symm]
  intro a ha hb hc hd
  simp [ha, hb, hc, hd]

theorem firstPtr_append (es fs : List Entry) (e : Ptr) :
    firstPtr (es ++ fs) e = firstPtr es (firstPtr fs e) := by
  cases es <;> rfl

theorem lastPtr_eq_none {es : List Entry} : lastPtr es = none ↔ es = [] := by
  simp [lastPtr]

theorem lastPtr_concat (es : List Entry) (x : Entry) : lastPtr (es ++ [x]) = some x.node := by
  simp [lastPtr]

theorem lastPtr_cons (x : Entry) (es : List Entry) :
    lastPtr (x :: es) = if es = [] then some x.node else lastPtr es := by
  cases es with
  | nil => simp [lastPtr]
  | cons y ys => simp [lastPtr, List.getLast?_cons_cons]

theorem Seg.mem {h : Heap} {es : List Entry} {e : Ptr} (hs : Seg h es e) {x : Entry}
    (hx : x ∈ es) :
    (∃ nx, h.read x.node = some (.ele (some x.str) nx)) ∧ h.read x.str = some (.str x.text) := by
  induction es with
  | nil => cases hx
  | cons y ys ih =>
    obtain ⟨h1, h2, h3⟩ := hs
    rcases List.mem_cons.mp hx with rfl | hmem
    · exact ⟨⟨_, h1⟩, h2⟩
    · exact ih h3 hmem

theorem Seg.congr {h h' : Heap} {es : List Entry} {e : Ptr}
    (hr : ∀ x ∈ es, h'.read x.node = h.read x.node ∧ h'.read x.str = h.read x.str)
    (hs : Seg h es e) : Seg h' es e := by
  induction es with
  | nil => trivial
  | cons y ys ih =>
    obtain ⟨h1, h2, h3⟩ := hs
    have hy := hr y (List.mem_cons_self _ _)
    exact ⟨hy.1.trans h1, hy.2.trans h2, ih (fun x hx => hr x (List.mem_cons_of_mem _ hx)) h3⟩

theorem Seg.append {h : Heap} {es fs : List Entry} {e : Ptr} :
    Seg h (es ++ fs) e ↔ Seg h es (firstPtr fs e) ∧ Seg h fs e := by
  induction es with
  | nil => simp [Seg]
  | cons y ys ih =>
    constructor
    · rintro ⟨h1, h2, h3⟩
      have e1 : firstPtr (ys.append fs) e = firstPtr ys (firstPtr fs e) :=
        firstPtr_append ys fs e
      rw [e1] at h1
      exact ⟨⟨h1, h2, (ih.mp h3).1⟩, (ih.mp h3).2⟩
    · rintro ⟨⟨h1, h2, h3⟩, h4⟩
      have e1 : firstPtr (ys ++ fs) e = firstPtr ys (firstPtr fs e) :=
        firstPtr_append ys fs e
      exact ⟨e1 ▸ h1, h2, ih.mpr ⟨h3, h4⟩⟩

theorem Seg.node_ne_str {h : Heap} {es fs : List Entry} {e e' : Ptr} (hs : Seg h es e)
    (hf : Seg h fs e') {x y : Entry} (hx : x ∈ es) (hy : y ∈ fs) : x.node ≠ y.str := by
  intro heq
  obtain ⟨⟨nx, h1⟩, _⟩ := hs.mem hx
  have h2 := (hf.mem hy).2
  rw [← heq, h1] at h2
  cases h2

theorem Seg.lt {h : Heap} {es : List Entry} {e : Ptr} (hs : Seg h es e) {x : Entry}
    (hx : x ∈ es) : x.node < h.length ∧ x.str < h.length := by
  obtain ⟨⟨nx, h1⟩, h2⟩ := hs.mem hx
  exact ⟨read_lt h1, read_lt h2⟩

theorem Seg.ne_queue {h : Heap} {es : List Entry} {e : Ptr} (hs : Seg h es e) {q : Nat}
    {hd tl : Ptr} {sz : Int} (hq : h.read q = some (.queue hd tl sz)) {x : Entry}
    (hx : x ∈ es) : x.node ≠ q ∧ x.str ≠ q := by
  obtain ⟨⟨nx, h1⟩, h2⟩ := hs.mem hx
  constructor
  · intro heq; rw [heq, hq] at h1; cases h1
  · intro heq; rw [heq, hq] at h2; cases h2

theorem insert_head_rep {h : Heap} {q : Nat} {es : List Entry} {tl : Ptr} {sz : Int}
    (hrep : Rep h q es tl sz) (s : Text) :
    ∃ h', q_insert_head true true h (some q) s = .ok (h', true) ∧
      h'.length = h.length + 2 ∧
      Rep h' q (⟨h.length, h.length + 1, s⟩ :: es)
        (if tl = none then some h.length else tl) (sz + 1) ∧
      ∀ a, a ≠ q → a < h.length → h'.read a = h.read a := by
  obtain ⟨hq, hseg, hn, hs⟩ := hrep
  obtain ⟨h', hrun, hlen, hq', hnode, hstr, hframe⟩ := insert_head_run hq s
  refine ⟨h', hrun, hlen, ⟨?_, ?_, ?_, ?_⟩, ?_⟩
  · simpa [firstPtr] using hq'
  · refine ⟨hnode, hstr, hseg.congr ?_⟩
    intro x hx
    have hlt := hseg.lt hx
    have hne := hseg.ne_queue hq hx
    exact ⟨hframe _ hne.1 (by omega) (by omega), hframe _ hne.2 (by omega) (by omega)⟩
  · simp only [List.map_cons, List.nodup_cons]
    refine ⟨?_, hn⟩
    intro hmem
    obtain ⟨x, hx, hxe⟩ := List.mem_map.mp hmem
    have := (hseg.lt hx).1
    omega
  · simp only [List.map_cons, List.nodup_cons]
    refine ⟨?_, hs⟩
    intro hmem
    obtain ⟨x, hx, hxe⟩ := List.mem_map.mp hmem
    have := (hseg.lt hx).2
    omega
  · intro a ha hlt
    exact hframe a ha (by omega) (by omega)

theorem insert_head_inv {h : Heap} {q : Nat} {es : List Entry} (hinv : Inv h q es) (s : Text) :
    ∃ h', q_insert_head true true h (some q) s = .ok (h', true) ∧
      h'.length = h.length + 2 ∧
      Inv h' q (⟨h.length, h.length + 1, s⟩ :: es) ∧
      ∀ a, a ≠ q → a < h.length → h'.read a = h.read a := by
  obtain ⟨h', hrun, hlen, hrep, hframe⟩ := insert_head_rep hinv s
  refine ⟨h', hrun, hlen, ?_, hframe⟩
  unfold Inv
  rw [lastPtr_cons]
  by_cases hes : es = []
  · subst hes
    simpa [lastPtr] using hrep
  · have : lastPtr es ≠ none := fun e => hes (lastPtr_eq_none.mp e)
    simpa [hes, this, add_comm] using hrep

theorem insert_tail_inv {h : Heap} {q : Nat} {es : List Entry} (hinv : Inv h q es) (s : Text) :
    ∃ h', q_insert_tail true true h (some q) s = .ok (h', true) ∧
      h'.length = h.length + 2 ∧
      Inv h' q (es ++ [⟨h.length, h.length + 1, s⟩]) ∧
      ∀ a, a ≠ q → a < h.length → lastPtr es ≠ some a → h'.read a = h.read a := by
  obtain ⟨hq, hseg, hn, hs⟩ := hinv
  rcases List.eq_nil_or_concat es with hes | ⟨init, l, hes⟩
  · subst hes
    obtain ⟨h', hrun, hlen, hq', hnode, hstr, hframe⟩ := insert_tail_run_empty hq s
    refine ⟨h', hrun, hlen, ⟨?_, ?_, ?_, ?_⟩, ?_⟩
    · simpa [firstPtr, lastPtr] using hq'
    · exact ⟨hnode, hstr, trivial⟩
    · simp
    · simp
    · intro a ha hlt _
      exact hframe a ha (by omega) (by omega)
  · rw [List.concat_eq_append] at hes
    subst hes
    rw [lastPtr_concat] at hq
    rw [Seg.append] at hseg
    obtain ⟨hinit, hl, hlstr, -⟩ := hseg
    obtain ⟨h', hrun, hlen, hq', ht', hnode, hstr, hframe⟩ := insert_tail_run hq hl s
    have hllt := read_lt hl
    have hlslt := read_lt hlstr
    have hlq : l.str ≠ q := by intro e; rw [e, hq] at hlstr; cases hlstr
    have hlsl : l.str ≠ l.node := by intro e; rw [e, hl] at hlstr; cases hlstr
    rw [List.map_append, List.nodup_append] at hn hs
    refine ⟨h', hrun, hlen, ⟨?_, ?_, ?_, ?_⟩, ?_⟩
    · have hf : firstPtr (init ++ [l] ++ [(⟨h.length, h.length + 1, s⟩ : Entry)]) none =
          firstPtr (init ++ [l]) none := by
        cases init <;> rfl
      rw [lastPtr_concat, hq', hf]
      simp
      ring
    · rw [List.append_assoc, Seg.append]
      refine ⟨hinit.congr ?_, ht', ?_, hnode, hstr, trivial⟩
      · intro x hx
        have hlt := hinit.lt hx
        have hne := hinit.ne_queue hq hx
        have hxl : x.node ≠ l.node := by
          intro e
          exact hn.2.2 (List.mem_map_of_mem _ hx) (by simp [e])
        have hxs : x.str ≠ l.node := by
          intro e; have := (hinit.mem hx).2; rw [e, hl] at this; cases this
        exact ⟨hframe _ hne.1 hxl (by omega) (by omega),
          hframe _ hne.2 hxs (by omega) (by omega)⟩
      · rw [hframe _ hlq hlsl (by omega) (by omega)]; exact hlstr
    · rw [List.map_append, List.map_append, ← List.map_append, List.nodup_append]
      refine ⟨?_, by simp, ?_⟩
      · rw [List.map_append, List.nodup_append]; exact hn
      · intro a ha hb
        simp only [List.map_cons, List.map_nil, List.mem_singleton] at hb
        obtain ⟨x, hx, hxe⟩ := List.mem_map.mp ha
        rcases List.mem_append.mp hx with hx | hx
        · have := (hinit.lt hx).1; omega
        · simp only [List.mem_singleton] at hx; subst hx; omega
    · rw [List.map_append, List.map_append, ← List.map_append, List.nodup_append]
      refine ⟨?_, by simp, ?_⟩
      · rw [List.map_append, List.nodup_append]; exact hs
      · intro a ha hb
        simp only [List.map_cons, List.map_nil, List.mem_singleton] at hb
        obtain ⟨x, hx, hxe⟩ := List.mem_map.mp ha
        rcases List.mem_append.mp hx with hx | hx
        · have := (hinit.lt hx).2; omega
        · simp only [List.mem_singleton] at hx; subst hx; omega
    · intro a ha hlt hne
      refine hframe a ha ?_ (by omega) (by omega)
      intro e; apply hne; rw [lastPtr_concat, e]

theorem reverse_loop_done (q : Nat) {h : Heap} {hd : Ptr} {t : Nat} {sz : Int}
    (hq : h.read q = some (.queue hd (some t) sz)) (fuel : Nat) :
    q_reverse_loop (some q) fuel h (some t) = .ok (h, some t) := by
  cases fuel <;> simp [q_reverse_loop, get_tail, hq]

theorem reverse_loop_step {h : Heap} {q a r t : Nat} {sz : Int} {v vr vt nr nt : Ptr}
    (hq : h.read q = some (.queue (some a) (some t) sz))
    (ha : h.read a = some (.ele v (some r)))
    (hr : h.read r = some (.ele vr nr))
    (ht : h.read t = some (.ele vt nt))
    (har : a ≠ r) (hrt : r ≠ t) (hat : a ≠ t) (fuel : Nat) :
    ∃ h', q_reverse_loop (some q) (fuel + 1) h (some r) = q_reverse_loop (some q) fuel h' nr ∧
      h'.length = h.length ∧
      h'.read a = some (.ele v nr) ∧ h'.read r = some (.ele vr nt) ∧
      h'.read t = some (.ele vt (some r)) ∧
      ∀ b, b ≠ a → b ≠ r → b ≠ t → h'.read b = h.read b := by
  have hqa : q ≠ a := by intro e; rw [e, ha] at hq; cases hq
  have hqr : q ≠ r := by intro e; rw [e, hr] at hq; cases hq
  have hqt : q ≠ t := by intro e; rw [e, ht] at hq; cases hq
  have la := read_lt ha
  have lr := read_lt hr
  have lt := read_lt ht
  refine ⟨((h.write a (some (.ele v nr))).write r (some (.ele vr nt))).write t
    (some (.ele vt (some r))), ?_, by simp, ?_, ?_, ?_, ?_⟩
  · simp [q_reverse_loop, get_tail, get_head, get_next, set_next, read_write, hq, ha, hr, ht,
      hqa, hqr, hqt, har, hrt, hat, har.symm, hrt.symm, hat.symm, la, lr, lt]
  · simp [read_write, har, hat, la]
  · simp [read_write, hrt, lr]
  · simp [read_write, lt]
  · intro b h1 h2 h3
    simp [read_write, h1, h2, h3]

theorem reverse_loop_spec (q : Nat) (x0 t : Entry) (sz : Int) :
    ∀ (rest done : List Entry) (h : Heap) (fuel : Nat),
      h.read q = some (.queue (some x0.node) (some t.node) sz) →
      h.read x0.node = some (.ele (some x0.str) (firstPtr rest (some t.node))) →
      h.read t.node = some (.ele (some t.str) (firstPtr done (some x0.node))) →
      Seg h done (some x0.node) → Seg h rest (some t.node) →
      ((x0 :: t :: (rest ++ done)).map Entry.node).Nodup →
      rest.length ≤ fuel →
      ∃ h', q_reverse_loop (some q) fuel h (firstPtr rest (some t.node)) =
          .ok (h', some t.node) ∧
        h'.length = h.length ∧ h'.read q = h.read q ∧
        h'.read x0.node = some (.ele (some x0.str) (some t.node)) ∧
        h'.read t.node =
          some (.ele (some t.str) (firstPtr (rest.reverse ++ done) (some x0.node))) ∧
        Seg h' (rest.reverse ++ done) (some x0.node) ∧
        ∀ a, a ≠ x0.node → a ≠ t.node → (∀ x ∈ rest ++ done, a ≠ x.node) →
          h'.read a = h.read a := by
  intro rest
  induction rest with
  | nil =>
    intro done h fuel hq h0 ht hdone _ _ _
    exact ⟨h, reverse_loop_done q hq fuel, rfl, rfl, h0, ht, hdone, fun _ _ _ _ => rfl⟩
  | cons r rest ih =>
    intro done h fuel hq h0 ht hdone hrest hnd hfuel
    obtain ⟨hr, hrs, hrest'⟩ := hrest
    obtain ⟨f, rfl⟩ : ∃ f, fuel = f + 1 := ⟨fuel - 1, by simp at hfuel; omega⟩
    simp only [List.map_cons, List.cons_append, List.nodup_cons, List.mem_cons, List.map_append,
      List.mem_append, List.mem_map, not_or, not_exists, not_and] at hnd
    obtain ⟨⟨hx0t, hx0r, hx0rest, hx0done⟩, ⟨htr, htrest, htdone⟩, ⟨hrrest, hrdone⟩, hnd'⟩ := hnd
    obtain ⟨h1, hstep, hlen, h1a, h1r, h1t, hfr⟩ :=
      reverse_loop_step hq h0 hr ht hx0r (Ne.symm htr) hx0t f
    have hq1 : h1.read q = h.read q := by
      apply hfr
      · intro e; rw [e, h0] at hq; cases hq
      · intro e; rw [e, hr] at hq; cases hq
      · intro e; rw [e, ht] at hq; cases hq
    have hstr : ∀ (y : Entry) (s : Text), h.read y.str = some (.str s) →
        h1.read y.str = h.read y.str := by
      intro y s hy
      apply hfr
      · intro e; rw [e, h0] at hy; cases hy
      · intro e; rw [e, hr] at hy; cases hy
      · intro e; rw [e, ht] at hy; cases hy
    have hdone1 : Seg h1 (r :: done) (some x0.node) := by
      refine ⟨h1r, (hstr r _ hrs).trans hrs, hdone.congr ?_⟩
      intro x hx
      refine ⟨hfr _ ?_ ?_ ?_, hstr x _ (hdone.mem hx).2⟩
      · exact fun e => hx0done x hx e
      · exact fun e => hrdone x hx e
      · exact fun e => htdone x hx e
    have hrest1 : Seg h1 rest (some t.node) := by
      refine hrest'.congr ?_
      intro x hx
      refine ⟨hfr _ ?_ ?_ ?_, hstr x _ (hrest'.mem hx).2⟩
      · exact fun e => hx0rest x hx e
      · exact fun e => hrrest x hx e
      · exact fun e => htrest x hx e
    have hnd1 : ((x0 :: t :: (rest ++ r :: done)).map Entry.node).Nodup := by
      simp only [List.map_cons, List.nodup_cons, List.mem_cons, List.map_append,
        List.mem_append, List.mem_map, not_or, not_exists, not_and]
      refine ⟨⟨hx0t, hx0rest, hx0r, hx0done⟩, ⟨htrest, htr, htdone⟩, ?_⟩
      have hp : (List.map Entry.node rest ++ r.node :: List.map Entry.node done).Perm
          (r.node :: (List.map Entry.node rest ++ List.map Entry.node done)) :=
        List.perm_middle
      rw [hp.nodup_iff, List.nodup_cons]
      refine ⟨?_, hnd'⟩
      simp only [List.mem_append, List.mem_map, not_or, not_exists, not_and]
      exact ⟨hrrest, hrdone⟩
    obtain ⟨h', hrun, hlen', hq', h0', ht', hseg', hfr'⟩ :=
      ih (r :: done) h1 f (hq1.trans hq) h1a h1t hdone1 hrest1 hnd1
        (by simp at hfuel; omega)
    refine ⟨h', ?_, hlen'.trans hlen, hq'.trans hq1, h0', ?_, ?_, ?_⟩
    · rw [← hrun]; exact hstep
    · simpa using ht'
    · simpa using hseg'
    · intro a ha0 hat hall
      have hall' : ∀ x ∈ rest ++ r :: done, a ≠ x.node := by
        intro x hx
        apply hall
        simp only [List.mem_append, List.mem_cons] at hx ⊢
        tauto
      rw [hfr' a ha0 hat hall']
      apply hfr a ha0 _ hat
      exact hall r (by simp)

theorem firstPtr_cons (x : Entry) (xs : List Entry) (e : Ptr) :
    firstPtr (x :: xs) e = some x.node := rfl

theorem firstPtr_nil (e : Ptr) : firstPtr [] e = e := rfl

theorem reverse_long {h : Heap} {q : Nat} {x0 t : Entry} {mid : List Entry} {fuel : Nat}
    (hinv : Inv h q (x0 :: (mid ++ [t]))) (hfuel : mid.length ≤ fuel) :
    ∃ h', q_reverse fuel h (some q) = .ok h' ∧ h'.length = h.length ∧
      Inv h' q (t :: (mid.reverse ++ [x0])) ∧
      ∀ a, a ≠ q → (∀ x ∈ x0 :: (mid ++ [t]), a ≠ x.node) → h'.read a = h.read a := by
  obtain ⟨hq, hseg, hn, hs⟩ := hinv
  have hseg0 := hseg
  obtain ⟨h0, h0s, hseg1⟩ := hseg
  rw [Seg.append] at hseg1
  obtain ⟨hmid, ht, hts, -⟩ := hseg1
  rw [firstPtr_append] at h0
  have hlast : lastPtr (x0 :: (mid ++ [t])) = some t.node := by
    rw [← List.cons_append, lastPtr_concat]
  rw [hlast] at hq
  simp only [firstPtr_cons, firstPtr_nil] at hq h0 ht hmid
  set sz : Int := ((x0 :: (mid ++ [t])).length : Int) with hsz
  have hsz1 : sz ≠ 1 := by
    simp [hsz]
    omega
  -- distinctness of the node addresses
  have hn' := hn
  simp only [List.map_cons, List.map_append, List.map_nil, List.nodup_cons, List.mem_append,
    List.mem_map, List.mem_singleton, not_or, not_exists, not_and, List.nodup_append,
    List.mem_cons] at hn'
  obtain ⟨⟨hx0mid, hx0t', -⟩, hmidnd, -, hmidt⟩ := hn'
  have hmidt' : ∀ x ∈ mid, x.node ≠ t.node := by
    intro x hx e
    exact hmidt (List.mem_map_of_mem _ hx) (by simp [e])
  have hqx0 : q ≠ x0.node := by intro e; rw [e, h0] at hq; cases hq
  have hqt : q ≠ t.node := by intro e; rw [e, ht] at hq; cases hq
  have lq := read_lt hq
  have lx0 := read_lt h0
  have ltn := read_lt ht
  -- the state at loop entry
  have hstr1 : ∀ (y : Entry) (s : Text), h.read y.str = some (.str s) →
      (h.write t.node (some (.ele (some t.str) (some x0.node)))).read y.str = h.read y.str := by
    intro y s hy
    have : y.str ≠ t.node := by intro e; rw [e, ht] at hy; cases hy
    simp [read_write, this]
  have hq1 : (h.write t.node (some (.ele (some t.str) (some x0.node)))).read q =
      some (.queue (some x0.node) (some t.node) sz) := by
    simp [read_write, hqt, hq]
  have h01 : (h.write t.node (some (.ele (some t.str) (some x0.node)))).read x0.node =
      some (.ele (some x0.str) (firstPtr mid (some t.node))) := by
    simp [read_write, hx0t', h0]
  have ht1 : (h.write t.node (some (.ele (some t.str) (some x0.node)))).read t.node =
      some (.ele (some t.str) (firstPtr [] (some x0.node))) := by
    simp [read_write, ltn, firstPtr]
  have hmid1 : Seg (h.write t.node (some (.ele (some t.str) (some x0.node)))) mid
      (some t.node) := by
    refine hmid.congr ?_
    intro x hx
    refine ⟨?_, hstr1 x _ (hmid.mem hx).2⟩
    simp [read_write, hmidt' x hx]
  have hnd1 : ((x0 :: t :: (mid ++ [])).map Entry.node).Nodup := by
    simp only [List.append_nil, List.map_cons, List.nodup_cons, List.mem_cons, List.mem_map,
      not_or, not_exists, not_and]
    refine ⟨⟨hx0t', fun x hx e => hx0mid x hx e⟩, fun x hx e => hmidt' x hx e, hmidnd⟩
  obtain ⟨h2, hrun, hlen2, hq2, h02, ht2, hseg2, hfr2⟩ :=
    reverse_loop_spec q x0 t sz mid [] _ fuel hq1 h01 ht1 trivial hmid1 hnd1 hfuel
  rw [hq1] at hq2
  simp only [List.append_nil] at ht2 hseg2 hfr2
  rw [length_write] at hlen2
  have lq2 : q < h2.length := by omega
  have lx2 : x0.node < h2.length := by omega
  refine ⟨((h2.write x0.node (some (.ele (some x0.str) none))).write q
      (some (.queue (some x0.node) (some x0.node) sz))).write q
      (some (.queue (some t.node) (some x0.node) sz)), ?_, by simp [hlen2], ?_, ?_⟩
  · simp [q_reverse, get_head, get_size, get_next, get_tail, set_next, set_tail, set_head, hq,
      h0, ht, hsz1, hrun, hq2, h02, read_write, hqx0, hqx0.symm, lq2, lx2]
  · have hframe : ∀ a, a ≠ q → (∀ x ∈ x0 :: (mid ++ [t]), a ≠ x.node) →
        (((h2.write x0.node (some (.ele (some x0.str) none))).write q
          (some (.queue (some x0.node) (some x0.node) sz))).write q
          (some (.queue (some t.node) (some x0.node) sz))).read a = h.read a := by
      intro a haq hall
      have ha0 : a ≠ x0.node := hall x0 (by simp)
      have hat : a ≠ t.node := hall t (by simp)
      have ham : ∀ x ∈ mid, a ≠ x.node := fun x hx => hall x (by simp [hx])
      simp only [read_write, haq, ha0, if_false]
      rw [hfr2 a ha0 hat ham]
      simp [read_write, hat]
    have hstr : ∀ y ∈ x0 :: (mid ++ [t]),
        (((h2.write x0.node (some (.ele (some x0.str) none))).write q
          (some (.queue (some x0.node) (some x0.node) sz))).write q
          (some (.queue (some t.node) (some x0.node) sz))).read y.str =
        some (.str y.text) := by
      intro y hy
      rw [hframe y.str (hseg0.ne_queue hq hy).2
        (fun x hx e => hseg0.node_ne_str hseg0 hx hy e.symm)]
      exact (hseg0.mem hy).2
    refine ⟨?_, ?_, ?_, ?_⟩
    · have hl : lastPtr (t :: (mid.reverse ++ [x0])) = some x0.node := by
        rw [← List.cons_append, lastPtr_concat]
      rw [hl]
      simp [read_write, lq2, firstPtr, hsz]
    · refine ⟨?_, hstr t (by simp), ?_⟩
      · rw [read_write, if_neg hqt.symm, read_write, if_neg hqt.symm, read_write,
          if_neg (Ne.symm hx0t'), ht2, firstPtr_append]
        rfl
      · rw [Seg.append]
        refine ⟨hseg2.congr ?_, ?_, hstr x0 (by simp), trivial⟩
        · intro x hx
          have hx' : x ∈ mid := List.mem_reverse.mp hx
          have hxq := (hmid.ne_queue hq hx').1
          have hx0 : x.node ≠ x0.node := fun e => hx0mid x hx' e
          refine ⟨by simp [read_write, hxq, hx0], ?_⟩
          rw [hstr x (by simp [hx'])]
          exact ((hseg2.mem hx).2).symm
        · simp [read_write, hqx0.symm, lx2, firstPtr]
    · have hp : (t :: (mid.reverse ++ [x0])).Perm (x0 :: (mid ++ [t])) := by
        have : t :: (mid.reverse ++ [x0]) = (x0 :: (mid ++ [t])).reverse := by simp
        rw [this]
        exact List.reverse_perm _
      exact ((hp.map Entry.node).nodup_iff).mpr hn
    · have hp : (t :: (mid.reverse ++ [x0])).Perm (x0 :: (mid ++ [t])) := by
        have : t :: (mid.reverse ++ [x0]) = (x0 :: (mid ++ [t])).reverse := by simp
        rw [this]
        exact List.reverse_perm _
      exact ((hp.map Entry.str).nodup_iff).mpr hs
  · intro a haq hall
    have ha0 : a ≠ x0.node := hall x0 (by simp)
    have hat : a ≠ t.node := hall t (by simp)
    have ham : ∀ x ∈ mid, a ≠ x.node := fun x hx => hall x (by simp [hx])
    simp only [read_write, haq, ha0, if_false]
    rw [hfr2 a ha0 hat ham]
    simp [read_write, hat]

theorem reverse_inv {h : Heap} {q : Nat} {es : List Entry} {fuel : Nat}
    (hinv : Inv h q es) (hfuel : es.length ≤ fuel) :
    ∃ h', q_reverse fuel h (some q) = .ok h' ∧ h'.length = h.length ∧
      Inv h' q es.reverse ∧
      (∀ a, a ≠ q → (∀ x ∈ es, a ≠ x.node) → h'.read a = h.read a) ∧
      (es.length ≤ 1 → h' = h) := by
  match es, hinv with
  | [], hinv =>
    have hq := hinv.1
    exact ⟨h, by simp [q_reverse, get_head, hq, firstPtr], rfl, hinv, fun _ _ _ => rfl,
      fun _ => rfl⟩
  | [x], hinv =>
    have hq := hinv.1
    exact ⟨h, by simp [q_reverse, get_head, get_size, hq, firstPtr], rfl, hinv,
      fun _ _ _ => rfl, fun _ => rfl⟩
  | x0 :: y :: ys, hinv =>
    obtain ⟨mid, t, hyt⟩ : ∃ mid t, y :: ys = mid ++ [t] := by
      rcases List.eq_nil_or_concat (y :: ys) with hnil | ⟨mid, t, hc⟩
      · cases hnil
      · exact ⟨mid, t, by rw [hc, List.concat_eq_append]⟩
    rw [hyt] at hinv hfuel ⊢
    obtain ⟨h', hrun, hlen, hinv', hfr⟩ :=
      reverse_long hinv (show mid.length ≤ fuel by simp at hfuel; omega)
    refine ⟨h', hrun, hlen, ?_, hfr, ?_⟩
    · have : (x0 :: (mid ++ [t])).reverse = t :: (mid.reverse ++ [x0]) := by simp
      rw [this]; exact hinv'
    · intro hle; simp at hle

theorem nodup_length_le {l : List Nat} {n : Nat} (hnd : l.Nodup) (hlt : ∀ a ∈ l, a < n) :
    l.length ≤ n := by
  have hsub : l ⊆ List.range n := fun a ha => List.mem_range.mpr (hlt a ha)
  have := (hnd.subperm hsub).length_le
  simpa using this

theorem texts_from_seg {h : Heap} :
    ∀ (es : List Entry) (n : Nat), Seg h es none → es.length ≤ n →
      texts_from h n (firstPtr es none) = some (es.map Entry.text) := by
  intro es
  induction es with
  | nil => intro n _ _; cases n <;> rfl
  | cons x xs ih =>
    intro n hseg hn
    obtain ⟨h1, h2, h3⟩ := hseg
    obtain ⟨m, rfl⟩ : ∃ m, n = m + 1 := ⟨n - 1, by simp at hn; omega⟩
    simp [firstPtr_cons, texts_from, h1, h2, ih m h3 (by simp at hn; omega)]

theorem rep_length_le {h : Heap} {q : Nat} {es : List Entry} {tl : Ptr} {sz : Int}
    (hrep : Rep h q es tl sz) : es.length ≤ h.length := by
  obtain ⟨_, hseg, hn, _⟩ := hrep
  have := nodup_length_le hn (fun a ha => by
    obtain ⟨x, hx, rfl⟩ := List.mem_map.mp ha
    exact (hseg.lt hx).1)
  simpa using this

theorem q_texts_rep {h : Heap} {q : Nat} {es : List Entry} {tl : Ptr} {sz : Int}
    (hrep : Rep h q es tl sz) : q_texts h q = some (es.map Entry.text) := by
  have hle := rep_length_le hrep
  obtain ⟨hq, hseg, _, _⟩ := hrep
  simp [q_texts, hq, texts_from_seg es h.length hseg hle]

theorem follow_seg {h : Heap} (t : Entry) :
    ∀ (es : List Entry), Seg h (es ++ [t]) none →
      follow h es.length (firstPtr (es ++ [t]) none) = some t.node := by
  intro es
  induction es with
  | nil => intro _; rfl
  | cons x xs ih =>
    intro hseg
    obtain ⟨h1, _, h3⟩ := hseg
    have h1' : h.read x.node = some (.ele (some x.str) (firstPtr (xs ++ [t]) none)) := h1
    simp only [List.cons_append, firstPtr_cons, List.length_cons, follow, h1']
    exact ih h3

theorem specInv_of_inv {h : Heap} {q : Nat} {es : List Entry} (hinv : Inv h q es) :
    SpecInv h q := by
  obtain ⟨hq, hseg, _, _⟩ := hinv
  unfold SpecInv
  rw [hq]
  rcases List.eq_nil_or_concat es with hnil | ⟨init, t, hc⟩
  · subst hnil
    simp [firstPtr, lastPtr]
  · rw [List.concat_eq_append] at hc
    subst hc
    have hfol := follow_seg t init hseg
    have hseg' := hseg
    rw [Seg.append] at hseg'
    obtain ⟨_, ht, _, _⟩ := hseg'
    have hfirst : firstPtr (init ++ [t]) none ≠ none := by
      cases init <;> simp [firstPtr]
    refine ⟨by positivity, ?_, ?_, ?_, ?_⟩
    · simp [lastPtr_concat]
      omega
    · intro _
      exact ⟨hfirst, by simp [lastPtr_concat]⟩
    · intro h1
      have h2 : (init ++ [t]).length = 1 := by exact_mod_cast h1
      rw [List.length_append, List.length_singleton] at h2
      have : init = [] := List.length_eq_zero.mp (by omega)
      subst this
      simp [firstPtr, lastPtr]
    · intro _
      refine ⟨?_, ?_⟩
      · rw [lastPtr_concat, ← hfol]
        congr 1
        simp
      · rw [lastPtr_concat]
        simp [get_next, ht, firstPtr]

theorem remove_head_rep {h : Heap} {q : Nat} {x : Entry} {rest : List Entry} {tl : Ptr}
    {sz : Int} (w : Nat) (sp : Option Buf) (k : Nat) (hrep : Rep h q (x :: rest) tl sz) :
    ∃ h', q_remove_head w h (some q) sp k =
        .ok (h', sp.map (fun b => copy_out w b x.text k), true) ∧
      h'.length = h.length ∧ Rep h' q rest tl (sz - 1) ∧
      h'.read x.node = none ∧ h'.read x.str = none ∧
      ∀ a, a ≠ q → a ≠ x.node → a ≠ x.str → h'.read a = h.read a := by
  obtain ⟨hq, hseg, hn, hs⟩ := hrep
  obtain ⟨hx, hxs, hrest⟩ := hseg
  rw [firstPtr_cons] at hq
  have hqx : q ≠ x.node := by intro e; rw [e, hx] at hq; cases hq
  have hqs : q ≠ x.str := by intro e; rw [e, hxs] at hq; cases hq
  have hxn : x.node ≠ x.str := by intro e; rw [e, hxs] at hx; cases hx
  have lq := read_lt hq
  have lx := read_lt hx
  have ls := read_lt hxs
  have hfr : ∀ a, a ≠ q → a ≠ x.node → a ≠ x.str →
      ((((h.write q (some (.queue (firstPtr rest none) tl sz))).write x.str none).write
        x.node none).write q (some (.queue (firstPtr rest none) tl (sz - 1)))).read a =
      h.read a := by
    intro a h1 h2 h3
    simp [read_write, h1, h2, h3]
  refine ⟨(((h.write q (some (.queue (firstPtr rest none) tl sz))).write x.str none).write
    x.node none).write q (some (.queue (firstPtr rest none) tl (sz - 1))), ?_, by simp,
    ⟨?_, ?_, ?_, ?_⟩, ?_, ?_, hfr⟩
  · cases sp <;>
    simp [q_remove_head, get_head, get_value, load_str, get_next, set_head, free, get_size,
      set_size, read_write, hq, hx, hxs, hqx, hqs, hxn, hqx.symm, hqs.symm, hxn.symm, lq, lx, ls]
  · simp [read_write, lq]
  · refine hrest.congr ?_
    intro y hy
    have hyq := hrest.ne_queue hq hy
    have hyn : y.node ≠ x.node := by
      intro e
      have := (List.nodup_cons.mp hn).1
      exact this (by rw [← e]; exact List.mem_map_of_mem _ hy)
    have hys : y.str ≠ x.str := by
      intro e
      have := (List.nodup_cons.mp hs).1
      exact this (by rw [← e]; exact List.mem_map_of_mem _ hy)
    have hyns : y.node ≠ x.str := by
      intro e; obtain ⟨⟨nx, h1⟩, _⟩ := hrest.mem hy; rw [e, hxs] at h1; cases h1
    have hysn : y.str ≠ x.node := by
      intro e; have h1 := (hrest.mem hy).2; rw [e, hx] at h1; cases h1
    exact ⟨hfr _ hyq.1 hyn hyns, hfr _ hyq.2 hysn hys⟩
  · exact (List.nodup_cons.mp hn).2
  · exact (List.nodup_cons.mp hs).2
  · simp [read_write, hqx.symm, lx]
  · simp [read_write, hqs.symm, hxn.symm, ls]

theorem remove_head_absent (w : Nat) (h : Heap) (sp : Option Buf) (k : Nat) :
    q_remove_head w h none sp k = .ok (h, sp, false) := by
  simp [q_remove_head]

theorem remove_head_empty (w : Nat) {h : Heap} {q : Nat} {tl : Ptr} {sz : Int}
    (hq : h.read q = some (.queue none tl sz)) (sp : Option Buf) (k : Nat) :
    q_remove_head w h (some q) sp k = .ok (h, sp, false) := by
  simp [q_remove_head, get_head, hq]

theorem getElem?_poke (f : Nat → Char → Char) :
    ∀ (b : Buf) (i j : Nat), (poke f i b)[j]? = (b[j]?).map (f (i + j)) := by
  intro b
  induction b with
  | nil => intro i j; simp [poke]
  | cons c cs ih =>
    intro i j
    cases j with
    | zero => simp [poke]
    | succ j =>
      simp only [poke, List.getElem?_cons_succ, ih]
      rw [show i + 1 + j = i + (j + 1) by omega]

theorem realbufsize_pos {w len k : Nat} (hk : 1 ≤ k) (hkw : k < 2 ^ w) :
    realbufsize w len k = min len (k - 1) := by
  unfold realbufsize
  by_cases hlt : len < k
  · rw [if_pos hlt]; omega
  · rw [if_neg hlt]
    have : k + 2 ^ w - 1 = (k - 1) + 2 ^ w := by omega
    rw [this, Nat.add_mod_right, Nat.mod_eq_of_lt (by omega)]
    omega

theorem getElem?_copy_out {w : Nat} (b : Buf) (t : Text) {k : Nat} (hk : 1 ≤ k)
    (hkw : k < 2 ^ w) (j : Nat) :
    (copy_out w b t k)[j]? = (b[j]?).map (fun old =>
      if j < min t.length (k - 1) then t.getD j (Char.ofNat 0)
      else if j < min t.length (k - 1) + 1 then Char.ofNat 0 else old) := by
  have hmod : (min t.length (k - 1) + 1) % 2 ^ w = min t.length (k - 1) + 1 :=
    Nat.mod_eq_of_lt (by omega)
  simp only [copy_out, strncpy, memset, realbufsize_pos hk hkw, getElem?_poke, hmod,
    Option.map_map, Nat.zero_add]
  rfl

theorem read_ge {h : Heap} {a : Nat} (ha : h.length ≤ a) : h.read a = none := by
  simp [Heap.read, List.getElem?_eq_none ha]

theorem Seg.read_eq {h h' : Heap} {es : List Entry} {e : Ptr} (hs : Seg h es e)
    (hs' : Seg h' es e) {x : Entry} (hx : x ∈ es) : h'.read x.node = h.read x.node := by
  induction es with
  | nil => cases hx
  | cons y ys ih =>
    obtain ⟨h1, _, h3⟩ := hs
    obtain ⟨h1', _, h3'⟩ := hs'
    rcases List.mem_cons.mp hx with rfl | hmem
    · rw [h1, h1']
    · exact ih h3 h3' hmem

theorem Rep.transfer {h h' : Heap} {q : Nat} {es : List Entry} {tl : Ptr} {sz : Int}
    (hr : ∀ a, h'.read a = h.read a) (hrep : Rep h q es tl sz) : Rep h' q es tl sz := by
  obtain ⟨hq, hseg, hn, hs⟩ := hrep
  exact ⟨(hr q).trans hq, hseg.congr (fun x _ => ⟨hr _, hr _⟩), hn, hs⟩

theorem insert_head_total {h : Heap} {q : Nat} {hd tl : Ptr} {sz : Int}
    (hq : h.read q = some (.queue hd tl sz)) (m1 m2 : Bool) (s : Text) :
    ∃ h', q_insert_head m1 m2 h (some q) s = .ok (h', m1 && m2) ∧
      ((m1 && m2) = false → ∀ a, h'.read a = h.read a) := by
  cases m1 with
  | false => exact ⟨h, by simp [q_insert_head, malloc], fun _ _ => rfl⟩
  | true =>
    cases m2 with
    | true =>
      obtain ⟨h', hrun, _⟩ := insert_head_run hq s
      exact ⟨h', hrun, fun hf => by simp at hf⟩
    | false =>
      refine ⟨((h.push (some (.ele none none))).write h.length (some (.ele none none))).write
        h.length none, ?_, ?_⟩
      · simp [q_insert_head, malloc, set_value, free, read_write, read_push]
      · intro _ a
        by_cases ha : a = h.length
        · subst ha
          rw [read_write, if_pos rfl, read_ge (le_refl _)]
          split <;> rfl
        · simp [read_write, read_push, ha]

theorem insert_tail_total {h : Heap} {q : Nat} {hd tl : Ptr} {sz : Int}
    (hq : h.read q = some (.queue hd tl sz)) (m1 m2 : Bool)
    (htl : (m1 && m2) = true →
      tl = none ∨ ∃ t vt nt, tl = some t ∧ h.read t = some (.ele vt nt))
    (s : Text) :
    ∃ h', q_insert_tail m1 m2 h (some q) s = .ok (h', m1 && m2) ∧
      ((m1 && m2) = false → ∀ a, h'.read a = h.read a) := by
  cases m1 with
  | false => exact ⟨h, by simp [q_insert_tail, malloc], fun _ _ => rfl⟩
  | true =>
    cases m2 with
    | true =>
      rcases htl rfl with rfl | ⟨t, vt, nt, rfl, ht⟩
      · obtain ⟨h', hrun, _⟩ := insert_tail_run_empty hq s
        exact ⟨h', hrun, fun hf => by simp at hf⟩
      · obtain ⟨h', hrun, _⟩ := insert_tail_run hq ht s
        exact ⟨h', hrun, fun hf => by simp at hf⟩
    | false =>
      refine ⟨((h.push (some (.ele none none))).write h.length (some (.ele none none))).write
        h.length none, ?_, ?_⟩
      · simp [q_insert_tail, malloc, set_value, free, read_write, read_push]
      · intro _ a
        by_cases ha : a = h.length
        · subst ha
          rw [read_write, if_pos rfl, read_ge (le_refl _)]
          split <;> rfl
        · simp [read_write, read_push, ha]

theorem inv_tail_live {h : Heap} {q : Nat} {es : List Entry} (hinv : Inv h q es) :
    lastPtr es = none ∨ ∃ t vt nt, lastPtr es = some t ∧ h.read t = some (.ele vt nt) := by
  rcases List.eq_nil_or_concat es with hnil | ⟨init, t, hc⟩
  · left; subst hnil; rfl
  · right
    rw [List.concat_eq_append] at hc
    subst hc
    obtain ⟨⟨nx, hr⟩, _⟩ := hinv.2.1.mem (x := t) (by simp)
    exact ⟨t.node, _, _, lastPtr_concat _ _, hr⟩

theorem run_ins_inv (q : Nat) :
    ∀ (ops : List Ins) (h : Heap) (es : List Entry), Inv h q es →
      ∃ h' es', run_ins (some q) ops h = .ok (h', true) ∧ Inv h' q es' ∧
        es'.map Entry.text = (head_texts ops).reverse ++ es.map Entry.text ++ tail_texts ops ∧
        es'.length = es.length + ops.length := by
  intro ops
  induction ops with
  | nil =>
    intro h es hinv
    exact ⟨h, es, rfl, hinv, by simp [head_texts, tail_texts], by simp⟩
  | cons op ops ih =>
    intro h es hinv
    cases op with
    | head s =>
      obtain ⟨h1, hrun, _, hinv1, _⟩ := insert_head_inv hinv s
      obtain ⟨h', es', hrun', hinv', htx, hlen⟩ := ih h1 _ hinv1
      refine ⟨h', es', by simp [run_ins, hrun, hrun'], hinv', ?_, ?_⟩
      · rw [htx]; simp [head_texts, tail_texts]
      · rw [hlen]; simp; omega
    | tail s =>
      obtain ⟨h1, hrun, _, hinv1, _⟩ := insert_tail_inv hinv s
      obtain ⟨h', es', hrun', hinv', htx, hlen⟩ := ih h1 _ hinv1
      refine ⟨h', es', by simp [run_ins, hrun, hrun'], hinv', ?_, ?_⟩
      · rw [htx]; simp [head_texts, tail_texts]
      · rw [hlen]; simp; omega

theorem q_new_inv (h : Heap) :
    q_new true h = .ok (h.push (some (.queue none none 0)), some h.length) ∧
      Inv (h.push (some (.queue none none 0))) h.length [] := by
  constructor
  · simp only [q_new, malloc, if_true]
    simp [set_head, set_tail, set_size, read_push, read_write]
    apply heap_ext
    · simp
    · intro a
      by_cases ha : a = h.length
      · subst ha; simp [read_write, read_push]
      · simp [read_write, read_push, ha]
  · refine ⟨?_, trivial, List.nodup_nil, List.nodup_nil⟩
    simp [read_push, firstPtr, lastPtr]

theorem to_int_eq {z : Int} (hlo : -2147483648 ≤ z) (hhi : z ≤ INT_MAX) : to_int z = z := by
  unfold INT_MAX at hhi
  unfold to_int
  omega

theorem get_size_rep {h : Heap} {q : Nat} {es : List Entry} {tl : Ptr} {sz : Int}
    (hrep : Rep h q es tl sz) : get_size h (some q) = .ok sz := by
  simp [get_size, hrep.1]

theorem q_size_rep {h : Heap} {q : Nat} {es : List Entry} {tl : Ptr} {sz : Int}
    (hrep : Rep h q es tl sz) : q_size h (some q) = .ok (h, to_int sz) := by
  simp [q_size, get_size, hrep.1]

theorem q_size_rep_small {h : Heap} {q : Nat} {es : List Entry} {tl : Ptr} {sz : Int}
    (hrep : Rep h q es tl sz) (hlo : -2147483648 ≤ sz) (hhi : sz ≤ INT_MAX) :
    q_size h (some q) = .ok (h, sz) := by
  rw [q_size_rep hrep, to_int_eq hlo hhi]

theorem copy_out_take (w : Nat) (b : Buf) (t : Text) {k : Nat} (hk : 1 ≤ k)
    (hkw : k < 2 ^ w) (hb : k ≤ b.length) :
    (copy_out w b t k).take (min t.length (k - 1) + 1) =
      t.take (min t.length (k - 1)) ++ [Char.ofNat 0] := by
  apply List.ext_getElem?
  intro j
  rw [List.getElem?_take, getElem?_copy_out b t hk hkw]
  have hn : min t.length (k - 1) ≤ t.length := Nat.min_le_left _ _
  have hn' : min t.length (k - 1) + 1 ≤ b.length := by omega
  rcases Nat.lt_trichotomy j (min t.length (k - 1)) with hlt | heq | hgt
  · have hjb : j < b.length := by omega
    have hjt : j < t.length := by omega
    rw [if_pos (by omega), List.getElem?_eq_getElem hjb, List.getElem?_append_left
      (by simp; omega), List.getElem?_take, if_pos hlt, List.getElem?_eq_getElem hjt]
    simp [hlt, List.getD_eq_getElem?_getD, List.getElem?_eq_getElem hjt]
  · have hjb : j < b.length := by omega
    rw [if_pos (by omega), List.getElem?_eq_getElem hjb, List.getElem?_append_right
      (by simp; omega)]
    simp [heq]
  · rw [if_neg (by omega), List.getElem?_eq_none (by simp; omega)]

theorem copy_out_frame (w : Nat) (b : Buf) (t : Text) {k : Nat} (hk : 1 ≤ k)
    (hkw : k < 2 ^ w) (j : Nat) (hj : min t.length (k - 1) + 1 ≤ j) :
    (copy_out w b t k)[j]? = b[j]? := by
  rw [getElem?_copy_out b t hk hkw]
  cases hbj : b[j]? with
  | none => rfl
  | some c =>
    simp only [Option.map_some']
    rw [if_neg (by omega), if_neg (by omega)]

theorem reverse_short {h : Heap} {q : Nat} {es : List Entry} {tl : Ptr}
    (hrep : Rep h q es tl es.length) (hlen : es.length ≤ 1) (fuel : Nat) :
    q_reverse fuel h (some q) = .ok h := by
  match es, hrep, hlen with
  | [], hrep, _ => simp [q_reverse, get_head, hrep.1, firstPtr]
  | [x], hrep, _ => simp [q_reverse, get_head, get_size, hrep.1, firstPtr]
  | _ :: _ :: _, _, hlen => simp at hlen

theorem q_remove_head_copies_aux (w : Nat) {h : Heap} {q : Nat} {x : Entry}
    {rest : List Entry} {tl : Ptr} {sz : Int} (b : Buf) (k : Nat)
    (hrep : Rep h q (x :: rest) tl sz) (hk : 1 ≤ k) (hkw : k < 2 ^ w) (hb : k ≤ b.length) :
    ∃ h' out, q_remove_head w h (some q) (some b) k = .ok (h', some out, true) ∧
      out.take (min x.text.length (k - 1) + 1) =
        x.text.take (min x.text.length (k - 1)) ++ [Char.ofNat 0] ∧
      out.drop (min x.text.length (k - 1) + 1) = b.drop (min x.text.length (k - 1) + 1) ∧
      (x.text.length < k → out.take (x.text.length + 1) = x.text ++ [Char.ofNat 0]) := by
  obtain ⟨h', hrun, _⟩ := remove_head_rep w (some b) k hrep
  refine ⟨h', copy_out w b x.text k, hrun, copy_out_take w b x.text hk hkw hb, ?_, ?_⟩
  · apply List.ext_getElem?
    intro j
    rw [List.getElem?_drop, List.getElem?_drop]
    exact copy_out_frame w b x.text hk hkw _ (by omega)
  · intro hlt
    have hmin : min x.text.length (k - 1) = x.text.length := by omega
    have := copy_out_take w b x.text hk hkw hb
    rw [hmin] at this
    rw [this, List.take_length]

theorem live_eq {h h' : Heap} (hl : h'.length = h.length)
    (hr : ∀ a, (h'.read a).isSome = (h.read a).isSome) : live h' = live h := by
  unfold live
  rw [hl]
  exact List.filter_congr (fun a _ => hr a)

theorem rep_reads {h : Heap} {q : Nat} {es : List Entry} {tl : Ptr} {sz : Int}
    (hrep : Rep h q es tl sz) {x : Entry} (hx : x ∈ es) :
    get_value h (some x.node) = .ok (some x.str) ∧ load_str h (some x.str) = .ok x.text := by
  obtain ⟨⟨nx, h1⟩, h2⟩ := hrep.2.1.mem hx
  exact ⟨by simp [get_value, h1], by simp [load_str, h2]⟩

theorem firstPtr_append_of_ne_nil {es : List Entry} (hne : es ≠ []) (fs : List Entry)
    (e : Ptr) : firstPtr (es ++ fs) e = firstPtr es none := by
  cases es with
  | nil => exact absurd rfl hne
  | cons x xs => rfl

theorem lastPtr_reverse (es : List Entry) : lastPtr es.reverse = firstPtr es none := by
  cases es with
  | nil => rfl
  | cons x xs => simp [lastPtr, firstPtr]

theorem firstPtr_reverse (es : List Entry) : firstPtr es.reverse none = lastPtr es := by
  rcases List.eq_nil_or_concat es with hnil | ⟨init, t, hc⟩
  · subst hnil; rfl
  · rw [List.concat_eq_append] at hc
    subst hc
    simp [lastPtr, firstPtr]

theorem free_loop_rep (q : Nat) (tl : Ptr) (sz : Int) :
    ∀ (es : List Entry) (h : Heap) (fuel : Nat), Rep h q es tl sz → es.length ≤ fuel →
      ∃ h', q_free_loop (some q) fuel h = .ok h' ∧ h'.length = h.length ∧
        h'.read q = some (.queue none tl sz) ∧
        ∀ a, a ≠ q → h'.read a =
          if a ∈ es.map Entry.node ∨ a ∈ es.map Entry.str then none else h.read a := by
  intro es
  induction es with
  | nil =>
    intro h fuel hrep _
    have hq := hrep.1
    rw [firstPtr_nil] at hq
    refine ⟨h, ?_, rfl, hq, fun a _ => by simp⟩
    cases fuel <;> simp [q_free_loop, get_head, hq]
  | cons x rest ih =>
    intro h fuel hrep hfuel
    obtain ⟨f, rfl⟩ : ∃ f, fuel = f + 1 := ⟨fuel - 1, by simp at hfuel; omega⟩
    obtain ⟨hq, ⟨hx, hxs, hrest⟩, hn, hs⟩ := hrep
    rw [firstPtr_cons] at hq
    have hqx : q ≠ x.node := by intro e; rw [e, hx] at hq; cases hq
    have hqs : q ≠ x.str := by intro e; rw [e, hxs] at hq; cases hq
    have hxn : x.node ≠ x.str := by intro e; rw [e, hxs] at hx; cases hx
    have lq := read_lt hq
    have lx := read_lt hx
    have ls := read_lt hxs
    have hstep : q_free_loop (some q) (f + 1) h = q_free_loop (some q) f
        (((h.write q (some (.queue (firstPtr rest none) tl sz))).write x.str none).write
          x.node none) := by
      simp [q_free_loop, get_head, get_next, set_head, get_value, free, read_write, hq, hx,
        hxs, hqx, hqs, hxn, hqx.symm, hqs.symm, hxn.symm, lq, lx, ls]
    have hfr : ∀ a, a ≠ q → a ≠ x.node → a ≠ x.str →
        (((h.write q (some (.queue (firstPtr rest none) tl sz))).write x.str none).write
          x.node none).read a = h.read a := by
      intro a h1 h2 h3
      simp [read_write, h1, h2, h3]
    have hrep1 : Rep (((h.write q (some (.queue (firstPtr rest none) tl sz))).write x.str
        none).write x.node none) q rest tl sz := by
      refine ⟨by simp [read_write, hqx, hqs, lq], hrest.congr ?_,
        (List.nodup_cons.mp hn).2, (List.nodup_cons.mp hs).2⟩
      intro y hy
      have hyq := hrest.ne_queue hq hy
      have hyn : y.node ≠ x.node := by
        intro e
        exact (List.nodup_cons.mp hn).1 (by rw [← e]; exact List.mem_map_of_mem _ hy)
      have hys : y.str ≠ x.str := by
        intro e
        exact (List.nodup_cons.mp hs).1 (by rw [← e]; exact List.mem_map_of_mem _ hy)
      have hyns : y.node ≠ x.str := by
        intro e; obtain ⟨⟨nx, h1⟩, _⟩ := hrest.mem hy; rw [e, hxs] at h1; cases h1
      have hysn : y.str ≠ x.node := by
        intro e; have h1 := (hrest.mem hy).2; rw [e, hx] at h1; cases h1
      exact ⟨hfr _ hyq.1 hyn hyns, hfr _ hyq.2 hysn hys⟩
    obtain ⟨h', hrun, hlen, hq', hall⟩ := ih _ f hrep1 (by simp at hfuel; omega)
    refine ⟨h', hstep.trans hrun, by simpa using hlen, hq', ?_⟩
    intro a haq
    rw [hall a haq]
    by_cases hmem : a ∈ rest.map Entry.node ∨ a ∈ rest.map Entry.str
    · have : a ∈ (x :: rest).map Entry.node ∨ a ∈ (x :: rest).map Entry.str := by
        rcases hmem with hm | hm
        · exact Or.inl (List.mem_cons_of_mem _ hm)
        · exact Or.inr (List.mem_cons_of_mem _ hm)
      rw [if_pos hmem, if_pos this]
    · rw [if_neg hmem]
      by_cases hax : a = x.node
      · subst hax
        have hm : x.node ∈ (x :: rest).map Entry.node := by simp
        rw [if_pos (Or.inl hm)]
        simp [read_write, lx]
      · by_cases has : a = x.str
        · subst has
          have hm : x.str ∈ (x :: rest).map Entry.str := by simp
          rw [if_pos (Or.inr hm)]
          simp [read_write, hxn.symm, ls]
        · have : ¬ (a ∈ (x :: rest).map Entry.node ∨ a ∈ (x :: rest).map Entry.str) := by
            rintro (h1 | h1)
            · rcases List.mem_cons.mp h1 with h2 | h2
              · exact hax h2
              · exact hmem (Or.inl h2)
            · rcases List.mem_cons.mp h1 with h2 | h2
              · exact has h2
              · exact hmem (Or.inr h2)
          rw [if_neg this]
          exact hfr a haq hax has

theorem q_free_rep {h : Heap} {q : Nat} {es : List Entry} {tl : Ptr} {sz : Int} {fuel : Nat}
    (hrep : Rep h q es tl sz) (hfuel : es.length ≤ fuel)
    (hclosed : ∀ a, (h.read a).isSome → a = q ∨ a ∈ es.map Entry.node ∨ a ∈ es.map Entry.str) :
    ∃ h', q_free fuel h (some q) = .ok h' ∧ live h' = [] := by
  obtain ⟨h1, hrun, hlen, hq1, hall⟩ := free_loop_rep q tl sz es h fuel hrep hfuel
  refine ⟨h1.write q none, by simp [q_free, hrun, free, hq1], ?_⟩
  unfold live
  rw [List.filter_eq_nil_iff]
  intro a _
  by_cases haq : a = q
  · subst haq
    simp [read_write]
  · rw [read_write, if_neg haq, hall a haq]
    by_cases hmem : a ∈ es.map Entry.node ∨ a ∈ es.map Entry.str
    · rw [if_pos hmem]; simp
    · rw [if_neg hmem]
      cases hr : h.read a with
      | none => simp
      | some c =>
        exfalso
        rcases hclosed a (by simp [hr]) with h1 | h2
        · exact haq h1
        · exact hmem h2

/-! ## The claims -/

/-- C1: on a queue that satisfies the data-model invariants and holds the
chain `es`, `q_reverse` returns (given fuel for its loop), the queue then holds
the same nodes in the opposite order, so the texts read from head are the
reverse of the texts read before, and the count is still the number of
elements, which `q_size` returns as an `int`. -/
theorem q_reverse_reverses (h : Heap) (q : Nat) (es : List Entry) (fuel : Nat)
    (hinv : Inv h q es) (hfuel : es.length ≤ fuel) :
    ∃ h', q_reverse fuel h (some q) = .ok h' ∧ Inv h' q es.reverse ∧
      q_texts h q = some (es.map Entry.text) ∧
      q_texts h' q = some (es.map Entry.text).reverse ∧
      get_size h' (some q) = .ok (es.length : Int) ∧
      q_size h' (some q) = .ok (h', to_int es.length) := by
  obtain ⟨h', hrun, _, hinv', _, _⟩ := reverse_inv hinv hfuel
  refine ⟨h', hrun, hinv', q_texts_rep hinv, ?_, ?_, ?_⟩
  · rw [q_texts_rep hinv', List.map_reverse]
  · simpa using get_size_rep hinv'
  · simpa using q_size_rep hinv'

/-- Instance of C1 on a three-element queue. -/
theorem q_reverse_reverses_witness :
    Inv demo_heap 0 demo_entries ∧ demo_entries.length ≤ 3 ∧
    ∃ h', q_reverse 3 demo_heap (some 0) = .ok h' ∧ Inv h' 0 demo_entries.reverse ∧
      q_texts demo_heap 0 = some (demo_entries.map Entry.text) ∧
      q_texts h' 0 = some (demo_entries.map Entry.text).reverse ∧
      get_size h' (some 0) = .ok (demo_entries.length : Int) ∧
      q_size h' (some 0) = .ok (h', to_int demo_entries.length) :=
  ⟨by decide, by decide,
    q_reverse_reverses demo_heap 0 demo_entries 3 (by decide) (by decide)⟩

/-- C2 (failing run): a queue is created, filled with one text by
`q_insert_tail`, emptied by `q_remove_head` (which hands the text back) and
filled again: the second `q_insert_tail` dereferences the stale `tail` of the
freed node, so the run does not continue as a FIFO list would. -/
theorem fifo_refill_faults :
    ∃ h1 h2 h3, q_new true [] = .ok (h1, some 0) ∧
      q_insert_tail true true h1 (some 0) ['a'] = .ok (h2, true) ∧
      q_remove_head 64 h2 (some 0) (some ['x', 'x', 'x']) 3 =
        .ok (h3, some ['a', Char.ofNat 0, 'x'], true) ∧
      get_tail h3 (some 0) = .ok (some 1) ∧ h3.read 1 = none ∧
      q_insert_tail true true h3 (some 0) ['b'] = .fault :=
  ⟨demo_empty, demo_single, demo_drained, by decide, by decide, by decide, by decide,
    by decide, by decide⟩

/-- C3 (failing input): with capacity 0 the copy of `q_remove_head` rewrites
all three bytes of the memory behind `sp`, although no byte may be written. -/
theorem copy_overruns_zero_capacity :
    q_remove_head 64 demo_single (some 0) (some ['x', 'y', 'z']) 0 =
      .ok (demo_drained, some ['a', Char.ofNat 0, Char.ofNat 0], true) := by
  decide

/-- C4: with an output buffer of capacity `k ≥ 1` and head text `t`,
`q_remove_head` leaves in the buffer the first `min (length t) (k - 1)`
characters of `t` followed by a terminator, touches no byte behind them, and
so hands back `t` itself when `length t < k`. -/
theorem q_remove_head_copies (w : Nat) (h : Heap) (q : Nat) (x : Entry) (rest : List Entry)
    (tl : Ptr) (sz : Int) (b : Buf) (k : Nat) (hrep : Rep h q (x :: rest) tl sz)
    (hk : 1 ≤ k) (hkw : k < 2 ^ w) (hb : k ≤ b.length) :
    ∃ h' out, q_remove_head w h (some q) (some b) k = .ok (h', some out, true) ∧
      out.take (min x.text.length (k - 1) + 1) =
        x.text.take (min x.text.length (k - 1)) ++ [Char.ofNat 0] ∧
      out.drop (min x.text.length (k - 1) + 1) = b.drop (min x.text.length (k - 1) + 1) ∧
      (x.text.length < k → out.take (x.text.length + 1) = x.text ++ [Char.ofNat 0]) :=
  q_remove_head_copies_aux w b k hrep hk hkw hb

/-- Instance of C4: capacity 2 against the text of `demo_heap`'s head. -/
theorem q_remove_head_copies_witness :
    Rep demo_heap 0 (⟨1, 2, ['a']⟩ :: [⟨3, 4, ['b']⟩, ⟨5, 6, ['c']⟩]) (some 5) 3 ∧
    1 ≤ 2 ∧ 2 < 2 ^ 64 ∧ 2 ≤ ['x', 'y', 'z'].length ∧
    ∃ h' out, q_remove_head 64 demo_heap (some 0) (some ['x', 'y', 'z']) 2 =
        .ok (h', some out, true) ∧
      out.take (min ['a'].length (2 - 1) + 1) =
        ['a'].take (min ['a'].length (2 - 1)) ++ [Char.ofNat 0] ∧
      out.drop (min ['a'].length (2 - 1) + 1) =
        ['x', 'y', 'z'].drop (min ['a'].length (2 - 1) + 1) ∧
      (['a'].length < 2 → out.take (['a'].length + 1) = ['a'] ++ [Char.ofNat 0]) :=
  ⟨by decide, by decide, by decide, by decide,
    q_remove_head_copies 64 demo_heap 0 ⟨1, 2, ['a']⟩ [⟨3, 4, ['b']⟩, ⟨5, 6, ['c']⟩]
      (some 5) 3 ['x', 'y', 'z'] 2 (by decide) (by decide) (by decide) (by decide)⟩

/-- C6 (failing input): `demo_single` satisfies the invariants and holds one
node; `q_remove_head` leaves `head` absent and `size` 0 but `tail` still set to
the freed node, so the invariants no longer hold. -/
theorem remove_last_keeps_tail :
    Inv demo_single 0 [⟨1, 2, ['a']⟩] ∧ SpecInv demo_single 0 ∧
    q_remove_head 64 demo_single (some 0) none 0 = .ok (demo_drained, none, true) ∧
    get_head demo_drained (some 0) = .ok none ∧
    get_tail demo_drained (some 0) = .ok (some 1) ∧
    q_size demo_drained (some 0) = .ok (demo_drained, 0) ∧
    demo_drained.read 1 = none ∧ ¬ SpecInv demo_drained 0 := by
  decide

/-- C7: in any interleaving of `q_insert_head` and `q_insert_tail` calls on a
freshly created queue, with allocations that succeed, every call reports
success and afterwards the texts read from head are the head-inserted texts in
reverse call order followed by the tail-inserted texts in call order. -/
theorem insert_interleaving_order (h0 : Heap) (ops : List Ins) :
    ∃ h1 q h', q_new true h0 = .ok (h1, some q) ∧
      run_ins (some q) ops h1 = .ok (h', true) ∧
      q_texts h' q = some ((head_texts ops).reverse ++ tail_texts ops) := by
  obtain ⟨hnew, hinv⟩ := q_new_inv h0
  obtain ⟨h', es', hrun, hinv', htx, _⟩ := run_ins_inv h0.length ops _ [] hinv
  refine ⟨_, _, h', hnew, hrun, ?_⟩
  rw [q_texts_rep hinv', htx]
  simp

/-- C8: on a queue that satisfies the data-model invariants, two calls of
`q_reverse` in a row give back the very heap they started from: the same head
and tail nodes, the same link on every node, the same texts. -/
theorem q_reverse_involution (h : Heap) (q : Nat) (es : List Entry) (fuel : Nat)
    (hinv : Inv h q es) (hfuel : es.length ≤ fuel) :
    ∃ h1, q_reverse fuel h (some q) = .ok h1 ∧ q_reverse fuel h1 (some q) = .ok h := by
  obtain ⟨h1, hrun1, hlen1, hinv1, hfr1, _⟩ := reverse_inv hinv hfuel
  obtain ⟨h2, hrun2, hlen2, hinv2, hfr2, _⟩ :=
    reverse_inv hinv1 (show es.reverse.length ≤ fuel by simpa using hfuel)
  rw [List.reverse_reverse] at hinv2
  have heq : h2 = h := by
    apply heap_ext (hlen2.trans hlen1)
    intro a
    by_cases haq : a = q
    · subst haq; exact hinv2.1.trans hinv.1.symm
    · by_cases hn : ∃ x ∈ es, a = x.node
      · obtain ⟨x, hx, rfl⟩ := hn
        exact Seg.read_eq hinv.2.1 hinv2.2.1 hx
      · have hall : ∀ x ∈ es, a ≠ x.node := fun x hx e => hn ⟨x, hx, e⟩
        rw [hfr2 a haq (fun x hx => hall x (List.mem_reverse.mp hx)), hfr1 a haq hall]
  exact ⟨h1, hrun1, heq ▸ hrun2⟩

/-- Instance of C8 on a three-element queue. -/
theorem q_reverse_involution_witness :
    Inv demo_heap 0 demo_entries ∧ demo_entries.length ≤ 5 ∧
    ∃ h1, q_reverse 5 demo_heap (some 0) = .ok h1 ∧
      q_reverse 5 h1 (some 0) = .ok demo_heap :=
  ⟨by decide, by decide,
    q_reverse_involution demo_heap 0 demo_entries 5 (by decide) (by decide)⟩

/-- C9: on an absent queue, or one whose head is absent, `q_remove_head`
reports failure and hands back the heap and the buffer untouched; in
particular it fails on a queue freshly created on any heap `h0`, whose size
stays 0. -/
theorem q_remove_head_fails (w : Nat) (h : Heap) (q : Ptr) (sp : Option Buf) (k : Nat)
    (h0 : Heap) (hq : q = none ∨ get_head h q = .ok none) :
    q_remove_head w h q sp k = .ok (h, sp, false) ∧
    ∃ h1 q1, q_new true h0 = .ok (h1, q1) ∧
      q_remove_head w h1 q1 sp k = .ok (h1, sp, false) ∧ q_size h1 q1 = .ok (h1, 0) := by
  constructor
  · rcases hq with rfl | hq
    · exact remove_head_absent w h sp k
    · cases q with
      | none => exact remove_head_absent w h sp k
      | some a => simp [q_remove_head, hq]
  · obtain ⟨hnew, hinv⟩ := q_new_inv h0
    refine ⟨_, _, hnew, remove_head_empty w hinv.1 sp k, ?_⟩
    simpa using q_size_rep_small hinv (by simp) (by simp [INT_MAX])

/-- Instance of C9 on an empty queue. -/
theorem q_remove_head_fails_witness :
    (some 0 = (none : Ptr) ∨ get_head demo_empty (some 0) = .ok none) ∧
    (q_remove_head 64 demo_empty (some 0) (some ['x']) 1 =
        .ok (demo_empty, some ['x'], false) ∧
      ∃ h1 q1, q_new true [] = .ok (h1, q1) ∧
        q_remove_head 64 h1 q1 (some ['x']) 1 = .ok (h1, some ['x'], false) ∧
        q_size h1 q1 = .ok (h1, 0)) :=
  ⟨Or.inr (by decide),
    q_remove_head_fails 64 demo_empty (some 0) (some ['x']) 1 [] (Or.inr (by decide))⟩

/-- C10 (failing run): the queue is drained by `q_insert_head` followed by
`q_remove_head`.  The queue reference is present and both allocations
succeed, yet `q_insert_tail` does not return success: it finds the stale
non-`NULL` `tail`, takes the branch of line 109 and writes the `next` link of
the freed node.  On the same state `q_insert_head` succeeds, and the failure
paths of both functions hand the heap back with every address unchanged. -/
theorem insert_tail_after_drain_faults :
    q_new true [] = .ok (demo_empty, some 0) ∧
    run_ops 64 4 (some 0) [.ins_head ['a'], .rem_head] demo_empty = .ok demo_drained ∧
    get_head demo_drained (some 0) = .ok none ∧
    get_tail demo_drained (some 0) = .ok (some 1) ∧ demo_drained.read 1 = none ∧
    q_insert_tail true true demo_drained (some 0) ['b'] = .fault ∧
    q_insert_head true true demo_drained (some 0) ['b'] =
      .ok ([some (.queue (some 3) (some 1) 1), none, none,
        some (.ele (some 4) none), some (.str ['b'])], true) ∧
    q_insert_tail false true demo_drained (some 0) ['b'] = .ok (demo_drained, false) ∧
    q_insert_tail true false demo_drained (some 0) ['b'] =
      .ok (demo_drained ++ [none], false) ∧
    q_insert_head true false demo_drained (some 0) ['b'] =
      .ok (demo_drained ++ [none], false) := by
  decide

/-- C11: on a queue with no element and count 0, whatever its `tail` field
holds, a successful `q_insert_head s` followed by `q_remove_head` with a buffer
of capacity `k > length s` reports success, leaves `s` and a terminator in the
buffer, and the count is 0 again. -/
theorem insert_remove_roundtrip (w : Nat) (h : Heap) (q : Nat) (tl : Ptr) (s : Text)
    (b : Buf) (k : Nat) (hq : h.read q = some (.queue none tl 0)) (hs : s.length < k)
    (hkw : k < 2 ^ w) (hb : k ≤ b.length) :
    ∃ h1 h2 out, q_insert_head true true h (some q) s = .ok (h1, true) ∧
      q_remove_head w h1 (some q) (some b) k = .ok (h2, some out, true) ∧
      out.take (s.length + 1) = s ++ [Char.ofNat 0] ∧
      q_size h2 (some q) = .ok (h2, 0) := by
  have hrep : Rep h q [] tl 0 := ⟨hq, trivial, List.nodup_nil, List.nodup_nil⟩
  obtain ⟨h1, hrun1, _, hrep1, _⟩ := insert_head_rep hrep s
  obtain ⟨h2, out, hrun2, _, _, htake⟩ :=
    q_remove_head_copies_aux w b k hrep1 (by omega) hkw hb
  obtain ⟨h2', hrun2', _, hrep2, _⟩ := remove_head_rep w (some b) k hrep1
  have heq : h2 = h2' := by
    rw [hrun2'] at hrun2
    injection hrun2 with e
    exact (congrArg Prod.fst e).symm
  subst heq
  refine ⟨h1, h2, out, hrun1, hrun2, htake hs, ?_⟩
  simpa using q_size_rep_small hrep2 (by norm_num) (by norm_num [INT_MAX])

/-- Instance of C11 on a queue emptied by `q_remove_head`. -/
theorem insert_remove_roundtrip_witness :
    demo_drained.read 0 = some (.queue none (some 1) 0) ∧ ['h', 'i'].length < 3 ∧
    3 < 2 ^ 64 ∧ 3 ≤ ['x', 'y', 'z', 'w'].length ∧
    ∃ h1 h2 out, q_insert_head true true demo_drained (some 0) ['h', 'i'] = .ok (h1, true) ∧
      q_remove_head 64 h1 (some 0) (some ['x', 'y', 'z', 'w']) 3 =
        .ok (h2, some out, true) ∧
      out.take (['h', 'i'].length + 1) = ['h', 'i'] ++ [Char.ofNat 0] ∧
      q_size h2 (some 0) = .ok (h2, 0) :=
  ⟨by decide, by decide, by decide, by decide,
    insert_remove_roundtrip 64 demo_drained 0 (some 1) ['h', 'i'] ['x', 'y', 'z', 'w'] 3
      (by decide) (by decide) (by decide) (by decide)⟩

/-- C12 (as stated, refuted): after `2 ^ 31` successful `q_insert_head` calls
on a freshly created queue the count is `2 ^ 31`, which the `int` returned by
`q_size` cannot hold: `q_size` returns `-2 ^ 31`, not the number of calls. -/
theorem q_size_wraps_past_int_max :
    ∃ h1 a h', q_new true [] = .ok (h1, some a) ∧
      run_ins (some a) (List.replicate 2147483648 (Ins.head [])) h1 = .ok (h', true) ∧
      q_size h' (some a) = .ok (h', -2147483648) ∧
      q_size h' (some a) ≠
        .ok (h', ((List.replicate 2147483648 (Ins.head [])).length : Int)) := by
  obtain ⟨hnew, hinv⟩ := q_new_inv []
  obtain ⟨h', es', hrun, hinv', _, hlen⟩ :=
    run_ins_inv ([] : Heap).length (List.replicate 2147483648 (Ins.head [])) _ [] hinv
  rw [List.length_replicate] at hlen
  have hsz : q_size h' (some ([] : Heap).length) = .ok (h', -2147483648) := by
    rw [q_size_rep hinv', hlen]
    rfl
  refine ⟨_, _, h', hnew, hrun, hsz, ?_⟩
  rw [hsz, List.length_replicate]
  intro heq
  injection heq with e
  have := congrArg Prod.snd e
  simp at this

/-- C12 (amended): after `N ≤ INT_MAX` successful insertions, at either end,
on a freshly created queue `q_size` returns `N`; on an absent queue it
returns 0; and `q_size` either faults (the pointer is not a live queue) or
hands back the heap it was given. -/
theorem q_size_counts (h0 : Heap) (ops : List Ins) (h : Heap) (q : Ptr)
    (hN : (ops.length : Int) ≤ INT_MAX) :
    (∃ h1 a h', q_new true h0 = .ok (h1, some a) ∧
      run_ins (some a) ops h1 = .ok (h', true) ∧
      q_size h' (some a) = .ok (h', (ops.length : Int))) ∧
    q_size h none = .ok (h, 0) ∧
    (q_size h q = .fault ∨ ∃ n, q_size h q = .ok (h, n)) := by
  refine ⟨?_, by simp [q_size], ?_⟩
  · obtain ⟨hnew, hinv⟩ := q_new_inv h0
    obtain ⟨h', es', hrun, hinv', _, hlen⟩ := run_ins_inv h0.length ops _ [] hinv
    refine ⟨_, _, h', hnew, hrun, ?_⟩
    have hlen' : (es'.length : Int) = (ops.length : Int) := by
      rw [hlen]; simp
    have := q_size_rep_small hinv' (by omega) (by rw [hlen']; exact hN)
    rw [this, hlen']
  · cases q with
    | none => exact Or.inr ⟨0, by simp [q_size]⟩
    | some a =>
      cases hc : get_size h (some a) with
      | ok n => exact Or.inr ⟨to_int n, by simp [q_size, hc]⟩
      | fault => exact Or.inl (by simp [q_size, hc])
      | timeout =>
        exfalso
        simp only [get_size] at hc
        split at hc <;> cases hc

/-- Instance of C12 (amended): two insertions on the empty heap. -/
theorem q_size_counts_witness :
    (([Ins.head ['a'], Ins.tail ['b']].length : Nat) : Int) ≤ INT_MAX ∧
    ((∃ h1 a h', q_new true [] = .ok (h1, some a) ∧
      run_ins (some a) [Ins.head ['a'], Ins.tail ['b']] h1 = .ok (h', true) ∧
      q_size h' (some a) = .ok (h', (([Ins.head ['a'], Ins.tail ['b']].length : Nat) : Int))) ∧
    q_size demo_heap none = .ok (demo_heap, 0) ∧
    (q_size demo_heap (some 0) = .fault ∨
      ∃ n, q_size demo_heap (some 0) = .ok (demo_heap, n))) :=
  ⟨by decide,
    q_size_counts [] [Ins.head ['a'], Ins.tail ['b']] demo_heap (some 0) (by decide)⟩

/-- C13: on an absent queue, and on a queue that holds no node or exactly one
node (count 0 or 1, whatever its `tail` field holds), `q_reverse` hands back
the heap unchanged, whatever the fuel. -/
theorem q_reverse_noop (fuel : Nat) (h : Heap) (q : Ptr)
    (hq : q = none ∨
      ∃ a es tl, q = some a ∧ Rep h a es tl es.length ∧ es.length ≤ 1) :
    q_reverse fuel h q = .ok h := by
  rcases hq with rfl | ⟨a, es, tl, rfl, hrep, hlen⟩
  · simp [q_reverse]
  · exact reverse_short hrep hlen fuel

/-- Instance of C13 on a one-element queue. -/
theorem q_reverse_noop_witness :
    ((some 0 : Ptr) = none ∨
      ∃ a es tl, (some 0 : Ptr) = some a ∧ Rep demo_single a es tl es.length ∧
        es.length ≤ 1) ∧
    q_reverse 0 demo_single (some 0) = .ok demo_single :=
  ⟨Or.inr ⟨0, [⟨1, 2, ['a']⟩], some 1, rfl, by decide, by decide⟩,
    q_reverse_noop 0 demo_single (some 0)
      (Or.inr ⟨0, [⟨1, 2, ['a']⟩], some 1, rfl, by decide, by decide⟩)⟩

/-- C14: on a queue satisfying the invariants `q_reverse` changes links and
the head and tail fields only: the live addresses are the same, every node
keeps its string and every string its characters, every address that is
neither the queue nor one of its nodes reads as before, the count is
unchanged (and `q_size` returns it as an `int`), and with two or more nodes the new head is the old tail and the
new tail the old head. -/
theorem q_reverse_frame (h : Heap) (q : Nat) (es : List Entry) (fuel : Nat)
    (hinv : Inv h q es) (hfuel : es.length ≤ fuel) :
    ∃ h', q_reverse fuel h (some q) = .ok h' ∧ live h' = live h ∧
      (∀ x ∈ es, get_value h' (some x.node) = get_value h (some x.node) ∧
        load_str h' (some x.str) = load_str h (some x.str) ∧
        load_str h (some x.str) = .ok x.text) ∧
      (∀ a, a ≠ q → (∀ x ∈ es, a ≠ x.node) → h'.read a = h.read a) ∧
      get_size h (some q) = .ok (es.length : Int) ∧
      get_size h' (some q) = .ok (es.length : Int) ∧
      q_size h' (some q) = .ok (h', to_int es.length) ∧
      (2 ≤ es.length → get_head h' (some q) = get_tail h (some q) ∧
        get_tail h' (some q) = get_head h (some q)) := by
  obtain ⟨h', hrun, hlen, hinv', hfr, _⟩ := reverse_inv hinv hfuel
  refine ⟨h', hrun, ?_, ?_, hfr, get_size_rep hinv, ?_, ?_, ?_⟩
  · apply live_eq hlen
    intro a
    by_cases haq : a = q
    · subst haq; rw [hinv'.1, hinv.1]; rfl
    · by_cases hn : ∃ x ∈ es, a = x.node
      · obtain ⟨x, hx, rfl⟩ := hn
        obtain ⟨⟨nx, h1⟩, _⟩ := hinv.2.1.mem hx
        obtain ⟨⟨nx', h1'⟩, _⟩ := hinv'.2.1.mem (List.mem_reverse.mpr hx)
        rw [h1, h1']; rfl
      · rw [hfr a haq (fun x hx e => hn ⟨x, hx, e⟩)]
  · intro x hx
    have h1 := rep_reads hinv hx
    have h2 := rep_reads hinv' (List.mem_reverse.mpr hx)
    exact ⟨h2.1.trans h1.1.symm, h2.2.trans h1.2.symm, h1.2⟩
  · simpa using get_size_rep hinv'
  · simpa using q_size_rep hinv'
  · intro _
    simp only [get_head, get_tail, hinv.1, hinv'.1]
    rw [firstPtr_reverse, lastPtr_reverse]
    exact ⟨rfl, rfl⟩

/-- Instance of C14 on a three-element queue. -/
theorem q_reverse_frame_witness :
    Inv demo_heap 0 demo_entries ∧ demo_entries.length ≤ 4 ∧
    ∃ h', q_reverse 4 demo_heap (some 0) = .ok h' ∧ live h' = live demo_heap ∧
      (∀ x ∈ demo_entries,
        get_value h' (some x.node) = get_value demo_heap (some x.node) ∧
        load_str h' (some x.str) = load_str demo_heap (some x.str) ∧
        load_str demo_heap (some x.str) = .ok x.text) ∧
      (∀ a, a ≠ 0 → (∀ x ∈ demo_entries, a ≠ x.node) → h'.read a = demo_heap.read a) ∧
      get_size demo_heap (some 0) = .ok (demo_entries.length : Int) ∧
      get_size h' (some 0) = .ok (demo_entries.length : Int) ∧
      q_size h' (some 0) = .ok (h', to_int demo_entries.length) ∧
      (2 ≤ demo_entries.length → get_head h' (some 0) = get_tail demo_heap (some 0) ∧
        get_tail h' (some 0) = get_head demo_heap (some 0)) :=
  ⟨by decide, by decide,
    q_reverse_frame demo_heap 0 demo_entries 4 (by decide) (by decide)⟩

/-- C15: for all texts a, b, c, z, on a queue freshly created on any heap:
three `q_insert_tail` calls give size 3; `q_reverse` makes the queue read
c, b, a; `q_remove_head` with a buffer of capacity `k > length c` hands back c
and the size is 2; `q_insert_head z` makes the queue read z, b, a. -/
theorem scenario_tail_reverse_pop_push (w fuel : Nat) (h0 : Heap) (a b c z : Text)
    (buf : Buf) (k : Nat) (hfuel : 3 ≤ fuel) (hc : c.length < k) (hkw : k < 2 ^ w)
    (hb : k ≤ buf.length) :
    ∃ h1 q h2 h3 h4 h5 h6 out h7,
      q_new true h0 = .ok (h1, some q) ∧
      q_insert_tail true true h1 (some q) a = .ok (h2, true) ∧
      q_insert_tail true true h2 (some q) b = .ok (h3, true) ∧
      q_insert_tail true true h3 (some q) c = .ok (h4, true) ∧
      q_size h4 (some q) = .ok (h4, 3) ∧
      q_reverse fuel h4 (some q) = .ok h5 ∧
      q_texts h5 q = some [c, b, a] ∧
      q_remove_head w h5 (some q) (some buf) k = .ok (h6, some out, true) ∧
      out.take (c.length + 1) = c ++ [Char.ofNat 0] ∧
      q_size h6 (some q) = .ok (h6, 2) ∧
      q_insert_head true true h6 (some q) z = .ok (h7, true) ∧
      q_texts h7 q = some [z, b, a] := by
  obtain ⟨hnew, hinv1⟩ := q_new_inv h0
  obtain ⟨h2, hrun2, _, hinv2, _⟩ := insert_tail_inv hinv1 a
  obtain ⟨h3, hrun3, _, hinv3, _⟩ := insert_tail_inv hinv2 b
  obtain ⟨h4, hrun4, _, hinv4, _⟩ := insert_tail_inv hinv3 c
  obtain ⟨h5, hrun5, _, hinv5, _, _⟩ :=
    reverse_inv hinv4 (show _ ≤ fuel by simpa using hfuel)
  simp only [List.nil_append, List.cons_append, List.reverse_cons, List.reverse_nil] at hinv5
  obtain ⟨h6, out, hrun6, _, _, htake⟩ :=
    q_remove_head_copies_aux w buf k hinv5 (by omega) hkw hb
  obtain ⟨h6', hrun6', _, hrep6, _⟩ := remove_head_rep w (some buf) k hinv5
  have heq : h6 = h6' := by
    rw [hrun6'] at hrun6
    injection hrun6 with e
    exact (congrArg Prod.fst e).symm
  subst heq
  obtain ⟨h7, hrun7, _, hrep7, _⟩ := insert_head_rep hrep6 z
  refine ⟨_, _, h2, h3, h4, h5, h6, out, h7, hnew, hrun2, hrun3, hrun4, ?_, hrun5, ?_, hrun6,
    htake hc, ?_, hrun7, ?_⟩
  · simpa using q_size_rep_small hinv4 (by simp) (by simp [INT_MAX])
  · simpa using q_texts_rep hinv5
  · have := q_size_rep_small hrep6 (by simp) (by simp [INT_MAX])
    simp only [List.length_cons, List.length_nil] at this
    rw [this]
    norm_num
  · simpa using q_texts_rep hrep7

/-- Instance of C15 on the empty heap with one-letter texts. -/
theorem scenario_tail_reverse_pop_push_witness :
    3 ≤ 3 ∧ ['c'].length < 2 ∧ 2 < 2 ^ 64 ∧ 2 ≤ ['x', 'y'].length ∧
    ∃ h1 q h2 h3 h4 h5 h6 out h7,
      q_new true [] = .ok (h1, some q) ∧
      q_insert_tail true true h1 (some q) ['a'] = .ok (h2, true) ∧
      q_insert_tail true true h2 (some q) ['b'] = .ok (h3, true) ∧
      q_insert_tail true true h3 (some q) ['c'] = .ok (h4, true) ∧
      q_size h4 (some q) = .ok (h4, 3) ∧
      q_reverse 3 h4 (some q) = .ok h5 ∧
      q_texts h5 q = some [['c'], ['b'], ['a']] ∧
      q_remove_head 64 h5 (some q) (some ['x', 'y']) 2 = .ok (h6, some out, true) ∧
      out.take (['c'].length + 1) = ['c'] ++ [Char.ofNat 0] ∧
      q_size h6 (some q) = .ok (h6, 2) ∧
      q_insert_head true true h6 (some q) ['z'] = .ok (h7, true) ∧
      q_texts h7 q = some [['z'], ['b'], ['a']] :=
  ⟨by decide, by decide, by decide, by decide,
    scenario_tail_reverse_pop_push 64 3 [] ['a'] ['b'] ['c'] ['z'] ['x', 'y'] 2
      (by decide) (by decide) (by decide) (by decide)⟩

/-- C16 (failing run): on a fresh queue, `q_insert_tail`, `q_remove_head`,
`q_insert_tail` and then `q_free`: the second insertion writes through the
stale `tail` into the freed node and the run faults, so it does not end with
every allocation released exactly once. -/
theorem refill_then_free_faults :
    q_new true [] = .ok (demo_empty, some 0) ∧
    run_ops 64 4 (some 0) [.ins_tail ['a'], .rem_head] demo_empty = .ok demo_drained ∧
    live demo_drained = [0] ∧
    run_ops 64 4 (some 0) [.ins_tail ['a'], .rem_head, .ins_tail ['b']] demo_empty =
      .fault ∧
    (run_ops 64 4 (some 0) [.ins_tail ['a'], .rem_head, .ins_tail ['b']] demo_empty).bind
      (fun h => q_free 4 h (some 0)) = .fault := by
  decide

/-- C17 (failing input): `q_sort` hands back every heap unchanged; on
`demo_unsorted`, which reads b, a, the queue still reads b, a afterwards,
which is not in ascending order. -/
theorem q_sort_leaves_order :
    Inv demo_unsorted 0 [⟨1, 2, ['b']⟩, ⟨3, 4, ['a']⟩] ∧
    q_sort demo_unsorted (some 0) = .ok demo_unsorted ∧
    q_texts demo_unsorted 0 = some [['b'], ['a']] ∧
    ¬ List.Sorted (fun (s t : Text) => s ≤ t) [['b'], ['a']] := by
  decide

/-- C18: a queue created by `q_new` satisfies the data-model invariants, and
from a queue that satisfies them `q_insert_head`, `q_insert_tail` (whether
their allocations succeed or not) and `q_reverse` return with a queue that
satisfies them again; the invariants include the conditions on count, head
and tail listed in the specification (`SpecInv`). -/
theorem invariants_preserved (h0 h : Heap) (q : Nat) (es : List Entry) (m1 m2 : Bool)
    (s : Text) (fuel : Nat) (hinv : Inv h q es) (hfuel : es.length ≤ fuel) :
    (∃ h1 a, q_new true h0 = .ok (h1, some a) ∧ Inv h1 a [] ∧ SpecInv h1 a) ∧
    (∃ h1 r es1, q_insert_head m1 m2 h (some q) s = .ok (h1, r) ∧ Inv h1 q es1 ∧
      SpecInv h1 q) ∧
    (∃ h2 r es2, q_insert_tail m1 m2 h (some q) s = .ok (h2, r) ∧ Inv h2 q es2 ∧
      SpecInv h2 q) ∧
    (∃ h3, q_reverse fuel h (some q) = .ok h3 ∧ Inv h3 q es.reverse ∧ SpecInv h3 q) ∧
    SpecInv h q := by
  refine ⟨?_, ?_, ?_, ?_, specInv_of_inv hinv⟩
  · obtain ⟨hnew, hinv0⟩ := q_new_inv h0
    exact ⟨_, _, hnew, hinv0, specInv_of_inv hinv0⟩
  · cases hm : (m1 && m2) with
    | true =>
      simp only [Bool.and_eq_true] at hm
      obtain ⟨rfl, rfl⟩ := hm
      obtain ⟨h1, hrun, _, hinv1, _⟩ := insert_head_inv hinv s
      exact ⟨h1, true, _, hrun, hinv1, specInv_of_inv hinv1⟩
    | false =>
      obtain ⟨h1, hrun, hf⟩ := insert_head_total hinv.1 m1 m2 s
      have hinv1 : Inv h1 q es := Rep.transfer (hf hm) hinv
      exact ⟨h1, _, es, hrun, hinv1, specInv_of_inv hinv1⟩
  · cases hm : (m1 && m2) with
    | true =>
      simp only [Bool.and_eq_true] at hm
      obtain ⟨rfl, rfl⟩ := hm
      obtain ⟨h2, hrun, _, hinv2, _⟩ := insert_tail_inv hinv s
      exact ⟨h2, true, _, hrun, hinv2, specInv_of_inv hinv2⟩
    | false =>
      obtain ⟨h2, hrun, hf⟩ := insert_tail_total hinv.1 m1 m2 (fun _ => inv_tail_live hinv) s
      have hinv2 : Inv h2 q es := Rep.transfer (hf hm) hinv
      exact ⟨h2, _, es, hrun, hinv2, specInv_of_inv hinv2⟩
  · obtain ⟨h3, hrun, _, hinv3, _, _⟩ := reverse_inv hinv hfuel
    exact ⟨h3, hrun, hinv3, specInv_of_inv hinv3⟩

/-- Instance of C18 on a three-element queue. -/
theorem invariants_preserved_witness :
    Inv demo_heap 0 demo_entries ∧ demo_entries.length ≤ 3 ∧
    ((∃ h1 a, q_new true [] = .ok (h1, some a) ∧ Inv h1 a [] ∧ SpecInv h1 a) ∧
    (∃ h1 r es1, q_insert_head true true demo_heap (some 0) ['z'] = .ok (h1, r) ∧
      Inv h1 0 es1 ∧ SpecInv h1 0) ∧
    (∃ h2 r es2, q_insert_tail true true demo_heap (some 0) ['z'] = .ok (h2, r) ∧
      Inv h2 0 es2 ∧ SpecInv h2 0) ∧
    (∃ h3, q_reverse 3 demo_heap (some 0) = .ok h3 ∧ Inv h3 0 demo_entries.reverse ∧
      SpecInv h3 0) ∧
    SpecInv demo_heap 0) :=
  ⟨by decide, by decide,
    invariants_preserved [] demo_heap 0 demo_entries true true ['z'] 3 (by decide)
      (by decide)⟩

/-- C19 (failing run): from a fresh queue, insert a at the head, remove it,
insert b and c at the head.  The state reached has count 2 and a `tail` that
refers to the freed first node; `q_reverse` then writes the `next` link of
that freed node (line 172) and faults, for every fuel. -/
theorem reverse_after_drain_faults :
    q_new true [] = .ok (demo_empty, some 0) ∧
    run_ops 64 4 (some 0) [.ins_head ['a'], .rem_head, .ins_head ['b'], .ins_head ['c']]
      demo_empty = .ok demo_stale ∧
    q_size demo_stale (some 0) = .ok (demo_stale, 2) ∧
    get_tail demo_stale (some 0) = .ok (some 1) ∧ demo_stale.read 1 = none ∧
    ∀ fuel, q_reverse fuel demo_stale (some 0) = .fault :=
  ⟨by decide, by decide, by decide, by decide, by decide, fun _ => rfl⟩

/-- C20: on a queue satisfying the invariants with at least one node, a
successful `q_insert_head` keeps `tail` and every address allocated before
the call other than the queue itself (so every node's text and link) as they
were; a successful `q_insert_tail` keeps `head` and every such address except
the old tail node `t`, whose string stays and whose link, `NULL` before, now
refers to the new node. -/
theorem insert_frame (h : Heap) (q : Nat) (es : List Entry) (s : Text)
    (hinv : Inv h q es) (hne : es ≠ []) :
    ∃ h1 h2 t vt,
      q_insert_head true true h (some q) s = .ok (h1, true) ∧
      get_tail h1 (some q) = get_tail h (some q) ∧
      (∀ a, a ≠ q → a < h.length → h1.read a = h.read a) ∧
      q_insert_tail true true h (some q) s = .ok (h2, true) ∧
      get_head h2 (some q) = get_head h (some q) ∧
      get_tail h (some q) = .ok (some t) ∧
      h.read t = some (.ele vt none) ∧ h2.read t = some (.ele vt (some h.length)) ∧
      (∀ a, a ≠ q → a ≠ t → a < h.length → h2.read a = h.read a) := by
  obtain ⟨init, l, rfl⟩ : ∃ init l, es = init ++ [l] := by
    rcases List.eq_nil_or_concat es with hnil | ⟨init, l, hc⟩
    · exact absurd hnil hne
    · exact ⟨init, l, by rw [hc, List.concat_eq_append]⟩
  obtain ⟨h1, hrun1, _, hinv1, hfr1⟩ := insert_head_inv hinv s
  obtain ⟨h2, hrun2, _, hinv2, hfr2⟩ := insert_tail_inv hinv s
  have hl : h.read l.node = some (.ele (some l.str) none) := by
    have := hinv.2.1
    rw [Seg.append] at this
    exact this.2.1
  have hl2 : h2.read l.node = some (.ele (some l.str) (some h.length)) := by
    have := hinv2.2.1
    rw [List.append_assoc, Seg.append] at this
    exact this.2.1
  refine ⟨h1, h2, l.node, some l.str, hrun1, ?_, hfr1, hrun2, ?_, ?_, hl, hl2, ?_⟩
  · simp only [get_tail, hinv1.1, hinv.1]
    rw [lastPtr_cons, if_neg hne]
  · simp only [get_head, hinv2.1, hinv.1]
    rw [firstPtr_append_of_ne_nil hne]
  · simp [get_tail, hinv.1, lastPtr_concat]
  · intro a haq hat hlt
    apply hfr2 a haq hlt
    rw [lastPtr_concat]
    exact fun e => hat (Option.some.inj e).symm

/-- Instance of C20 on a three-element queue. -/
theorem insert_frame_witness :
    Inv demo_heap 0 demo_entries ∧ demo_entries ≠ [] ∧
    ∃ h1 h2 t vt,
      q_insert_head true true demo_heap (some 0) ['z'] = .ok (h1, true) ∧
      get_tail h1 (some 0) = get_tail demo_heap (some 0) ∧
      (∀ a, a ≠ 0 → a < demo_heap.length → h1.read a = demo_heap.read a) ∧
      q_insert_tail true true demo_heap (some 0) ['z'] = .ok (h2, true) ∧
      get_head h2 (some 0) = get_head demo_heap (some 0) ∧
      get_tail demo_heap (some 0) = .ok (some t) ∧
      demo_heap.read t = some (.ele vt none) ∧
      h2.read t = some (.ele vt (some demo_heap.length)) ∧
      (∀ a, a ≠ 0 → a ≠ t → a < demo_heap.length → h2.read a = demo_heap.read a) :=
  ⟨by decide, by decide, insert_frame demo_heap 0 demo_entries ['z'] (by decide) (by decide)⟩

end Lab0
